import Mathlib

/-!
Shallow embedding of the KwentaKo expense bot core (src/api/webhook.js, blob-backed
variant; src/index.js and src/unnamed/part_000 share the same getStats logic).

Modelling conventions:
* JS strings are `List Char` (`Str`); all string operations (split, trim,
  startsWith, includes, toLowerCase, replace) are re-implemented structurally so
  that every definition evaluates in the kernel.
* JS numbers are modelled as exact rationals (`ℚ`).  Every finite IEEE double is a
  binary fraction, hence a rational with a finite decimal expansion; `ratToJS`
  prints that exact expansion (JS shortest round-trip printing agrees on the small
  literals that occur here).  `NaN` is modelled by `Option.none` out of
  `jsParseFloat`; the unrepresentable `Infinity` literal is folded into `none` as
  well.
* Effects (the current date, the generation timestamp, the Gemini transport) are
  passed as explicit parameters.
-/

namespace Kwentako

/- The Batteries rational-number operations are `@[irreducible]`; restoring the
default reducibility lets `decide` evaluate the embedded definitions on concrete
inputs.  (The kernel ignores reducibility attributes, so proofs are unaffected.) -/
attribute [local semireducible] Rat.mul Rat.add Rat.sub Rat.inv Rat.ofScientific

abbrev Str := List Char

def jsIsWs (c : Char) : Bool :=
  c = ' ' || c = '\t' || c = '\n' || c = '\r' || c = '\x0b' || c = '\x0c'

def jsIsDigit (c : Char) : Bool := '0' ≤ c && c ≤ '9'

def trimStr (s : Str) : Str :=
  ((s.dropWhile jsIsWs).reverse.dropWhile jsIsWs).reverse

def splitOnChar (sep : Char) : Str → List Str
  | [] => [[]]
  | c :: rest =>
    if c = sep then [] :: splitOnChar sep rest
    else
      match splitOnChar sep rest with
      | [] => [[c]]
      | r :: rs => (c :: r) :: rs

def strStartsWith (pat s : Str) : Bool :=
  match pat, s with
  | [], _ => true
  | _ :: _, [] => false
  | p :: ps, c :: cs => p = c && strStartsWith ps cs

def containsSub (hay needle : Str) : Bool :=
  match hay with
  | [] => strStartsWith needle []
  | _ :: rest => strStartsWith needle hay || containsSub rest needle

def jsToLower (c : Char) : Char :=
  if 'A' ≤ c && c ≤ 'Z' then Char.ofNat (c.toNat + 32) else c

def toLowerStr (s : Str) : Str := s.map jsToLower

def removeQuotes (s : Str) : Str := s.filter (fun c => c ≠ '"')

def digitChar (n : Nat) : Char :=
  match n with
  | 0 => '0' | 1 => '1' | 2 => '2' | 3 => '3' | 4 => '4'
  | 5 => '5' | 6 => '6' | 7 => '7' | 8 => '8' | _ => '9'

def digitVal (c : Char) : Nat := c.toNat - 48

def digitsToNat (s : Str) : Nat := s.foldl (fun a c => 10 * a + digitVal c) 0

def natDigitsAux : Nat → Nat → Str
  | 0, _ => []
  | fuel + 1, n =>
    if n < 10 then [digitChar n]
    else natDigitsAux fuel (n / 10) ++ [digitChar (n % 10)]

def natToStr (n : Nat) : Str := natDigitsAux (n + 1) n

def parseMantissa (s : Str) : Option (ℚ × Str) :=
  let int := s.takeWhile jsIsDigit
  let r1 := s.dropWhile jsIsDigit
  match r1 with
  | '.' :: r2 =>
    let frac := r2.takeWhile jsIsDigit
    let r3 := r2.dropWhile jsIsDigit
    if int = [] && frac = [] then none
    else some ((digitsToNat int : ℚ) + (digitsToNat frac : ℚ) / (10 : ℚ) ^ frac.length, r3)
  | _ =>
    if int = [] then none
    else some ((digitsToNat int : ℚ), r1)

def parseExponent (s : Str) : Int :=
  match s with
  | 'e' :: rest => parseExponentTail rest
  | 'E' :: rest => parseExponentTail rest
  | _ => 0
where
  parseExponentTail (rest : Str) : Int :=
    match rest with
    | '+' :: r => let ds := r.takeWhile jsIsDigit; if ds = [] then 0 else (digitsToNat ds : Int)
    | '-' :: r => let ds := r.takeWhile jsIsDigit; if ds = [] then 0 else -(digitsToNat ds : Int)
    | r => let ds := r.takeWhile jsIsDigit; if ds = [] then 0 else (digitsToNat ds : Int)

def applyExponent (q : ℚ) (e : Int) : ℚ :=
  match e with
  | Int.ofNat n => q * (10 : ℚ) ^ n
  | Int.negSucc n => q / (10 : ℚ) ^ (n + 1)

def parseUnsigned (s : Str) : Option ℚ :=
  match parseMantissa s with
  | some (q, rest) => some (applyExponent q (parseExponent rest))
  | none => none

/-- Model of the JS global parseFloat: skip leading whitespace, read an optional
sign, then the longest numeric prefix (mantissa with optional fraction, optional
exponent).  NaN, produced when no digit can be read, is modelled as none. -/
def jsParseFloat (s : Str) : Option ℚ :=
  match s.dropWhile jsIsWs with
  | [] => none
  | c :: r =>
    if c = '-' then (parseUnsigned r).map (fun q => -q)
    else if c = '+' then parseUnsigned r
    else parseUnsigned (c :: r)

def findDecExpAux (den : Nat) : Nat → Nat → Option Nat
  | _, 0 => none
  | k, fuel + 1 => if 10 ^ k % den = 0 then some k else findDecExpAux den (k + 1) fuel

def findDecExp (den : Nat) : Option Nat := findDecExpAux den 0 (den + 1)

def decimalString (m k : Nat) : Str :=
  if k = 0 then natToStr m
  else
    let ds := natToStr m
    let ds' := List.replicate (k + 1 - ds.length) '0' ++ ds
    ds'.take (ds'.length - k) ++ '.' :: ds'.drop (ds'.length - k)

def ratToJSNonneg (q : ℚ) : Str :=
  match findDecExp q.den with
  | some k => decimalString (q.num.toNat * (10 ^ k / q.den)) k
  | none => ['?']

/-- Number-to-string conversion as JS template literals perform it on the finite
decimal values occurring here: the exact decimal expansion with no trailing
zeros, and no decimal point for integers. -/
def ratToJS (q : ℚ) : Str :=
  if q < 0 then '-' :: ratToJSNonneg (-q) else ratToJSNonneg q

/-- Model of Number.prototype.toFixed on an exact rational: d digits after the
point, rounding half away from zero.  Exact rationals carry no binary-float
representation error, so ties land exactly on .5 boundaries. -/
def jsToFixed (d : Nat) (q : ℚ) : Str :=
  if q < 0 then '-' :: decimalString (Int.toNat ⌊(-q) * (10 : ℚ) ^ d + 1 / 2⌋) d
  else decimalString (Int.toNat ⌊q * (10 : ℚ) ^ d + 1 / 2⌋) d

def digitChars : Str := ['0', '1', '2', '3', '4', '5', '6', '7', '8', '9']

def hasDecForm (q : ℚ) : Bool := (findDecExp q.den).isSome

structure ExpenseRecord where
  date : Str
  description : Str
  amount : ℚ
  category : Str
deriving DecidableEq

def foodStr : Str := "Food".toList
def transportationStr : Str := "Transportation".toList
def suppliesStr : Str := "Supplies".toList
def utilitiesStr : Str := "Utilities".toList
def personalStr : Str := "Personal".toList
def otherStr : Str := "Other".toList

def standardCategories : List Str :=
  [foodStr, transportationStr, suppliesStr, utilitiesStr, personalStr, otherStr]

def totalOf (records : List ExpenseRecord) : ℚ :=
  (records.map ExpenseRecord.amount).sum

def catTotal (records : List ExpenseRecord) (cat : Str) : ℚ :=
  ((records.filter (fun r => r.category = cat)).map ExpenseRecord.amount).sum

def pctStr (total amount : ℚ) : Str :=
  if 0 < total then jsToFixed 1 (amount / total * 100) else "0.0".toList

def breakdownLine (total : ℚ) (cat : Str) (amount : ℚ) : Str :=
  "# ".toList ++ cat ++ ": PHP ".toList ++ jsToFixed 2 amount ++
    " (".toList ++ pctStr total amount ++ "%)".toList

def breakdownLinesOf (records : List ExpenseRecord) : List Str :=
  standardCategories.map (fun cat => breakdownLine (totalOf records) cat (catTotal records cat))

def headerRowStr : Str := "Date,Description,Amount (PHP),Category".toList

def hdrSig : Str := "Date,Description,Amount".toList

def headerLinesOf (timestamp : Str) (records : List ExpenseRecord) : List Str :=
  ["# KwentaKo Expense Tracker".toList,
   "# Generated: ".toList ++ timestamp,
   "# Creator: Eli Bautista".toList,
   "# Total Expenses: PHP ".toList ++ jsToFixed 2 (totalOf records),
   "# Total Records: ".toList ++ natToStr records.length,
   ['#'],
   "# CATEGORY BREAKDOWN:".toList] ++
  breakdownLinesOf records ++
  [['#'], headerRowStr]

def dataRow (r : ExpenseRecord) : Str :=
  r.date ++ ',' :: '"' :: (r.description ++ '"' :: ',' :: (ratToJS r.amount ++ ',' :: r.category))

def rawRow (d desc amtStr cat : Str) : Str :=
  d ++ ',' :: '"' :: (desc ++ '"' :: ',' :: (amtStr ++ ',' :: cat))

def joinNl : List Str → Str
  | [] => []
  | [l] => l
  | l :: l2 :: ls => l ++ '\n' :: joinNl (l2 :: ls)

/-- Model of generateCompleteCSV (webhook.js 450..504): metadata comment lines,
category breakdown, the header row, one data row per record, all joined with a
newline and a trailing newline.  The ISO timestamp is an explicit parameter. -/
def generateCompleteCSV (timestamp : Str) (expenseRecords : List ExpenseRecord) : Str :=
  joinNl (headerLinesOf timestamp expenseRecords ++ expenseRecords.map dataRow) ++ ['\n']

/-- A rendered document whose metadata is computed from the given records but
whose data-row lines are supplied directly; generateCompleteCSV is the special
case rows = records.map dataRow.  Used to state corrupt-row properties. -/
def docWithRows (timestamp : Str) (records : List ExpenseRecord) (rows : List Str) : Str :=
  joinNl (headerLinesOf timestamp records ++ rows) ++ ['\n']

/-- The line loop of parseExistingCSV (webhook.js 509..546): trim each line, skip
empty and comment lines, flip into the data section at a line starting with
"Date,Description,Amount", then split data rows on commas, strip quotes from the
description, parse the amount with parseFloat and drop the row when it is NaN.
The Bool is the inDataSection flag. -/
def parseLines : Bool → List Str → List ExpenseRecord
  | _, [] => []
  | inData, line :: rest =>
    let t := trimStr line
    if t = [] then parseLines inData rest
    else if strStartsWith ['#'] t then parseLines inData rest
    else if strStartsWith hdrSig t then parseLines true rest
    else if inData then
      let parts := splitOnChar ',' t
      if 4 ≤ parts.length then
        match jsParseFloat (parts.getD 2 []) with
        | some amount =>
          ⟨parts.getD 0 [], removeQuotes (parts.getD 1 []), amount,
            parts.getD 3 []⟩ :: parseLines inData rest
        | none => parseLines inData rest
      else parseLines inData rest
    else parseLines inData rest

def parseExistingCSV (csvContent : Str) : List ExpenseRecord :=
  parseLines false (splitOnChar '\n' csvContent)

def mergeRecords (existingRecords newRecords : List ExpenseRecord) : List ExpenseRecord :=
  existingRecords ++ newRecords

/-- The merge steps of the text handler (webhook.js 1017..1034): parse the
existing document, append the new records after the existing ones, re-render. -/
def mergeDocument (timestamp existingContent : Str) (newRecords : List ExpenseRecord) : Str :=
  generateCompleteCSV timestamp (mergeRecords (parseExistingCSV existingContent) newRecords)

def upsertTotal (cat : Str) (amt : ℚ) : List (Str × ℚ) → List (Str × ℚ)
  | [] => [(cat, amt)]
  | (c, v) :: rest =>
    if c = cat then (c, v + amt) :: rest else (c, v) :: upsertTotal cat amt rest

/-- One step of Object.entries(categoryTotals).reduce((a, b) => a[1] > b[1] ? a : b):
keep a only when strictly greater, so a tie moves to b (the later entry). -/
def pickTop (a b : Str × ℚ) : Str × ℚ := if b.2 < a.2 then a else b

def reduceTop (entries : List (Str × ℚ)) : Str × ℚ :=
  entries.foldl pickTop ([], 0)

inductive StatsResult where
  | noRecords
  | stats (recordCount : Nat) (totalAmount : ℚ) (averageExpense : ℚ)
      (topCategory : Str × ℚ) (categoryTotals : List (Str × ℚ))
deriving DecidableEq

/-- One row of the stats loop (webhook.js 152..161): parseFloat(row[2]); when it
is NaN the row is skipped, otherwise total, count and the per-category totals are
updated.  row[3] || "Other" replaces only a missing or empty category.  The
insertion-ordered JS object of category totals is an association list. -/
def statsStep (acc : ℚ × Nat × List (Str × ℚ)) (row : List Str) : ℚ × Nat × List (Str × ℚ) :=
  match jsParseFloat (row.getD 2 []) with
  | none => acc
  | some amount =>
    let category := if row.getD 3 [] = [] then otherStr else row.getD 3 []
    (acc.1 + amount, acc.2.1 + 1, upsertTotal category amount acc.2.2)

/-- Model of getStatsFromSheet (webhook.js first variant 140..192; the same loop
appears in src/index.js and src/unnamed/part_000): drop the header row, fold the
rows, return the no-records result when the count is zero, otherwise the count,
total, average, top category and the category totals. -/
def getStatsFromSheet (values : Option (List (List Str))) : StatsResult :=
  let rows := match values with | some vs => vs.drop 1 | none => []
  let acc := rows.foldl statsStep (0, 0, [])
  if acc.2.1 = 0 then StatsResult.noRecords
  else
    StatsResult.stats acc.2.1 acc.1 (acc.1 / (acc.2.1 : ℚ)) (reduceTop acc.2.2) acc.2.2

def noNl (s : Str) : Bool := s.all (fun c => c ≠ '\n')

def noComma (s : Str) : Bool := s.all (fun c => c ≠ ',')

def cleanDate (s : Str) : Bool :=
  noComma s && noNl s &&
    (match s with | [] => true | c :: _ => !jsIsWs c && c ≠ '#')

def cleanDesc (s : Str) : Bool := noComma s && noNl s && s.all (fun c => c ≠ '"')

def cleanCat (s : Str) : Bool :=
  noComma s && noNl s && (match s.getLast? with | none => true | some c => !jsIsWs c)

/-- Fields that survive the CSV round trip: the date, description and category
carry none of the metacharacters that split(","), trim or the quote-stripping
regex would destroy, and the amount has a finite decimal expansion (every value
parseFloat can produce has one). -/
def cleanRec (r : ExpenseRecord) : Bool :=
  cleanDate r.date && cleanDesc r.description && hasDecForm r.amount && cleanCat r.category

def cleanTimestamp (s : Str) : Bool := noNl s

def numChar (c : Char) : Prop := c ∈ digitChars ∨ c = '.' ∨ c = '-'

def phpLit : Str := "php".toList
def pesoSign : Str := ['₱']
def pesosLit : Str := "pesos".toList
def pesoLit : Str := "peso".toList
def forLit : Str := "for".toList
def costLit : Str := "cost".toList
def priceLit : Str := "price".toList
def worthLit : Str := "worth".toList

def matchLitCI : Str → Str → Option Str
  | [], s => some s
  | _ :: _, [] => none
  | l :: ls, c :: cs => if jsToLower c = l then matchLitCI ls cs else none

/-- The regex fragment (\d+(?:\.\d{2})?): a digit run, optionally followed by a
point and exactly two digits (the two-digit branch only when both digits are
present, since the group is not backtracked here). -/
def matchAmount (s : Str) : Option (Str × Str) :=
  let ds := s.takeWhile jsIsDigit
  let r := s.dropWhile jsIsDigit
  if ds = [] then none
  else
    match r with
    | '.' :: a :: b :: r3 =>
      if jsIsDigit a && jsIsDigit b then some (ds ++ '.' :: a :: b :: [], r3)
      else some (ds, r)
    | _ => some (ds, r)

def afterCurrency (s : Str) : Option (Str × Str) := matchAmount (s.dropWhile jsIsWs)

def tryCurrency (s : Str) : Option (Str × Str) :=
  (matchLitCI phpLit s).bind afterCurrency <|>
  (matchLitCI pesoSign s).bind afterCurrency <|>
  (matchLitCI pesosLit s).bind afterCurrency <|>
  (matchLitCI pesoLit s).bind afterCurrency <|>
  afterCurrency s

def afterKeyword (s : Str) : Option (Str × Str) := tryCurrency (s.dropWhile jsIsWs)

def tryKeyword (s : Str) : Option (Str × Str) :=
  (matchLitCI forLit s).bind afterKeyword <|>
  (matchLitCI costLit s).bind afterKeyword <|>
  (matchLitCI priceLit s).bind afterKeyword <|>
  (matchLitCI worthLit s).bind afterKeyword <|>
  afterKeyword s

def pat0After (rest : Str) : Option Str :=
  match rest with
  | c :: cs => if jsIsWs c then (tryKeyword (cs.dropWhile jsIsWs)).map Prod.fst else none
  | [] => none

def pat0Lazy (acc : Str) : Str → Option (Str × Str)
  | [] => none
  | c :: rest =>
    if c = '\n' then none
    else
      match pat0After rest with
      | some amt => some ((c :: acc).reverse, amt)
      | none => pat0Lazy (c :: acc) rest

def pat0Find : Str → Option (Str × Str)
  | [] => none
  | c :: rest => pat0Lazy [] (c :: rest) <|> pat0Find rest

def pat1W2 (s : Str) : Option Str :=
  match s.dropWhile jsIsWs with
  | c :: cs => some ((c :: cs).takeWhile (fun x => x ≠ '\n'))
  | [] =>
    match (s.takeWhile jsIsWs).reverse.dropWhile (fun x => x = '\n') with
    | [] => none
    | w :: _ => some [w]

def pat1Tail (s : Str) : Option Str :=
  match s with
  | c :: cs =>
    if jsIsWs c then
      match (c :: cs).dropWhile jsIsWs with
      | x :: xs => ((matchLitCI forLit (x :: xs)).bind pat1W2) <|> pat1W2 (x :: xs)
      | [] =>
        match (c :: cs).reverse.dropWhile (fun x => x = '\n') with
        | [] => none
        | w :: tl => if tl = [] then none else some [w]
    else none
  | [] => none

def pat1Num (s : Str) : Option (Str × Str) :=
  match matchAmount (s.dropWhile jsIsWs) with
  | some (amt, r) => (pat1Tail r).map (fun d => (amt, d))
  | none => none

def pat1AtPos (s : Str) : Option (Str × Str) :=
  (matchLitCI phpLit s).bind pat1Num <|>
  (matchLitCI pesoSign s).bind pat1Num <|>
  (matchLitCI pesosLit s).bind pat1Num <|>
  (matchLitCI pesoLit s).bind pat1Num <|>
  pat1Num s

def pat1Find : Str → Option (Str × Str)
  | [] => none
  | c :: rest => pat1AtPos (c :: rest) <|> pat1Find rest

/-- Anchored amount check for pattern 3, \d+(?:\.\d{2})?$ : the whole remaining
text is a digit run optionally followed by a point and exactly two digits. -/
def exactAmount (s : Str) : Bool :=
  let ds := s.takeWhile jsIsDigit
  let r := s.dropWhile jsIsDigit
  ds ≠ [] && (r = [] ||
    (match r with
     | '.' :: a :: b :: [] => jsIsDigit a && jsIsDigit b
     | _ => false))

def pat2Lazy (acc : Str) : Str → Option (Str × Str)
  | [] => none
  | c :: rest =>
    if c = '\n' then none
    else
      let found : Option (Str × Str) :=
        match rest with
        | d :: _ =>
          if jsIsWs d then
            (fun t => if exactAmount t then some ((c :: acc).reverse, t) else none)
              (rest.dropWhile jsIsWs)
          else none
        | [] => none
      found <|> pat2Lazy (c :: acc) rest

def pat2Find : Str → Option (Str × Str)
  | [] => none
  | c :: rest => pat2Lazy [] (c :: rest) <|> pat2Find rest

/-- The number salvage of parseExpensesManually: text.match(/\d+(?:\.\d{2})?/)
found via the leftmost digit position, returning the text before the match, the
match, and the text after it, so the description is text with the matched span
removed (the replace call). -/
def findNumberSplit : Str → Str → Option (Str × Str × Str)
  | _, [] => none
  | pre, c :: rest =>
    if jsIsDigit c then
      match matchAmount (c :: rest) with
      | some (m, r) => some (pre.reverse, m, r)
      | none => none
    else findNumberSplit (c :: pre) rest

def amountFalsy : Option ℚ → Bool
  | none => true
  | some q => q = 0

/-- The keyword chain of parseExpensesManually (webhook.js 770..799): the first
matching keyword group on the lower-cased text decides the category, defaulting
to Other. -/
def categoryFor (text : Str) : Str :=
  let lowerText := toLowerStr text
  if containsSub lowerText ("food".toList) || containsSub lowerText ("lunch".toList) ||
      containsSub lowerText ("dinner".toList) || containsSub lowerText ("meal".toList) ||
      containsSub lowerText ("eat".toList) then foodStr
  else if containsSub lowerText ("taxi".toList) || containsSub lowerText ("bus".toList) ||
      containsSub lowerText ("transport".toList) || containsSub lowerText ("fare".toList) then
    transportationStr
  else if containsSub lowerText ("office".toList) || containsSub lowerText ("work".toList) ||
      containsSub lowerText ("supplies".toList) then suppliesStr
  else if containsSub lowerText ("bill".toList) || containsSub lowerText ("electric".toList) ||
      containsSub lowerText ("water".toList) || containsSub lowerText ("internet".toList) then
    utilitiesStr
  else if containsSub lowerText ("personal".toList) || containsSub lowerText ("health".toList) ||
      containsSub lowerText ("medical".toList) then personalStr
  else otherStr

def manualEntryStr : Str := "Manual entry".toList

/-- The three-pattern cascade of parseExpensesManually (webhook.js 718..744):
pattern 1 (amount after a currency or keyword marker), then pattern 2 (amount
then description), then pattern 3 (description then bare amount at the end);
the found amount text goes through parseFloat and the description is trimmed. -/
def manualStep1 (text : Str) : Option ℚ × Str :=
  match pat0Find text with
  | some (g1, g2) => (jsParseFloat g2, trimStr g1)
  | none =>
    match pat1Find text with
    | some (amt, g2) => (jsParseFloat amt, trimStr g2)
    | none =>
      match pat2Find text with
      | some (g1, g2) => (jsParseFloat g2, trimStr g1)
      | none => (none, trimStr text)

/-- The salvage step (webhook.js 746..760): when the cascade produced no amount
or amount 0 (both falsy), look for any number in the text; on success the
description is the text with the matched span removed. -/
def manualStep2 (text : Str) : Option ℚ × Str :=
  if amountFalsy (manualStep1 text).1 then
    match findNumberSplit [] text with
    | some (pre, m, post) => (jsParseFloat m, trimStr (pre ++ post))
    | none => manualStep1 text
  else manualStep1 text

/-- Model of parseExpensesManually (webhook.js 713..803): always one record;
a falsy amount becomes 0 with the whole text as description; an empty
description becomes "Manual entry"; the category comes from the keyword chain. -/
def parseExpensesManually (date text : Str) : List ExpenseRecord :=
  let amount : ℚ := if amountFalsy (manualStep2 text).1 then 0 else (manualStep2 text).1.getD 0
  let description : Str := if amountFalsy (manualStep2 text).1 then text else (manualStep2 text).2
  let finalDesc : Str := if description = [] then manualEntryStr else description
  [⟨date, finalDesc, amount, categoryFor text⟩]

structure RawRecord where
  description : Str
  amount : ℚ
  category : Str
deriving DecidableEq

inductive AIResponse where
  | ok (records : List RawRecord)
  | err (message : Str)

/-- The transient-error test of parseExpensesWithAI: the message contains 503,
overloaded, UNAVAILABLE, rate limit or 429. -/
def isTransientMsg (msg : Str) : Bool :=
  containsSub msg ("503".toList) || containsSub msg ("overloaded".toList) ||
  containsSub msg ("UNAVAILABLE".toList) || containsSub msg ("rate limit".toList) ||
  containsSub msg ("429".toList)

def withDate (date : Str) (r : RawRecord) : ExpenseRecord :=
  ⟨date, r.description, r.amount, r.category⟩

/-- The retry loop of parseExpensesWithAI (webhook.js 832..887).  The transport
maps the attempt number to the simulated Gemini outcome; the second component
records the attempts made.  The loop runs attempt = 1..maxRetries, so fuel
maxRetries suffices and the fuel-0 arm is unreachable from
parseExpensesWithAIT.  A transient error retries while attempt < maxRetries and
falls back to the manual parser on the last attempt; a non-transient error
falls back on the last attempt (attempt = maxRetries) and is returned as an
error otherwise. -/
def aiLoop (transport : Nat → AIResponse) (date text : Str) (maxRetries : Nat) :
    Nat → Nat → Except Str (List ExpenseRecord) × List Nat
  | _, 0 => (Except.error ("undefined".toList), [])
  | attempt, fuel + 1 =>
    match transport attempt with
    | AIResponse.ok raws => (Except.ok (raws.map (withDate date)), [attempt])
    | AIResponse.err e =>
      if isTransientMsg e then
        if attempt < maxRetries then
          (fun next => (next.1, attempt :: next.2))
            (aiLoop transport date text maxRetries (attempt + 1) fuel)
        else (Except.ok (parseExpensesManually date text), [attempt])
      else if attempt = maxRetries then
        (Except.ok (parseExpensesManually date text), [attempt])
      else (Except.error e, [attempt])

/-- parseExpensesWithAI with the attempt trace: the empty-input guard, then the
retry loop from attempt 1 with fuel maxRetries. -/
def parseExpensesWithAIT (transport : Nat → AIResponse) (date text : Str) (maxRetries : Nat) :
    Except Str (List ExpenseRecord) × List Nat :=
  if trimStr text = [] then (Except.error ("Empty input text".toList), [])
  else aiLoop transport date text maxRetries 1 maxRetries

instance {α β : Type} [DecidableEq α] [DecidableEq β] : DecidableEq (Except α β) :=
  fun a b =>
    match a, b with
    | Except.ok x, Except.ok y => decidable_of_iff (x = y) (by simp)
    | Except.error x, Except.error y => decidable_of_iff (x = y) (by simp)
    | Except.ok _, Except.error _ => isFalse (by simp)
    | Except.error _, Except.ok _ => isFalse (by simp)

def parseExpensesWithAI (transport : Nat → AIResponse) (date text : Str) (maxRetries : Nat) :
    Except Str (List ExpenseRecord) :=
  (parseExpensesWithAIT transport date text maxRetries).1

def tsSample : Str := "2026-10-11T10:00:00.000Z".toList
def tsSample2 : Str := "2026-10-11T10:05:00.000Z".toList
def dateSample : Str := "10/11/2026".toList
def recA : ExpenseRecord := ⟨"01/02/2026".toList, "lunch at cafe".toList, 150, foodStr⟩
def recB : ExpenseRecord := ⟨"02/02/2026".toList, "taxi home".toList, mkRat 161 2, transportationStr⟩
def recComma : ExpenseRecord := ⟨"03/02/2026".toList, "beef, rice and eggs".toList, 5, foodStr⟩
def recGroceries : ExpenseRecord := ⟨"04/02/2026".toList, "weekly market run".toList, 5, "Groceries".toList⟩
def taxiText : Str := "taxi fare 80".toList
def lunchText : Str := "lunch 100".toList
def transient503 : Nat → AIResponse := fun _ => AIResponse.err ("503 Service Unavailable".toList)
def mixedTransport : Nat → AIResponse :=
  fun i => if i < 3 then AIResponse.err ("503".toList) else AIResponse.err ("schema violation".toList)
def boomTransport : Nat → AIResponse := fun _ => AIResponse.err ("schema violation".toList)

/- ------------------------------------------------------------------ -/
/- Lemmas and theorems                                                 -/
/- ------------------------------------------------------------------ -/

lemma digitChar_mem {m : Nat} (h : m < 10) : digitChar m ∈ digitChars := by
  interval_cases m <;> decide

lemma digitVal_digitChar {m : Nat} (h : m < 10) : digitVal (digitChar m) = m := by
  interval_cases m <;> decide

lemma mem_digitChars_facts {c : Char} (h : c ∈ digitChars) :
    jsIsDigit c = true ∧ jsIsWs c = false ∧ c ≠ '.' ∧ c ≠ '-' ∧ c ≠ '+' ∧
    c ≠ ',' ∧ c ≠ '"' ∧ c ≠ '\n' ∧ c ≠ '#' ∧ c ≠ 'e' ∧ c ≠ 'E' := by
  simp only [digitChars, List.mem_cons, List.not_mem_nil, or_false] at h
  rcases h with rfl | rfl | rfl | rfl | rfl | rfl | rfl | rfl | rfl | rfl <;> decide

lemma foldl_digits (s : Str) (x : Nat) :
    s.foldl (fun a c => 10 * a + digitVal c) x = x * 10 ^ s.length + digitsToNat s := by
  induction s generalizing x with
  | nil => simp [digitsToNat]
  | cons c t ih =>
    show (t.foldl _ (10 * x + digitVal c)) = _
    rw [ih]
    have h2 : digitsToNat (c :: t) = digitVal c * 10 ^ t.length + digitsToNat t := by
      show (t.foldl _ (10 * 0 + digitVal c)) = _
      rw [ih]; ring_nf
    rw [h2]; simp [List.length_cons]; ring

lemma digitsToNat_append (a b : Str) :
    digitsToNat (a ++ b) = digitsToNat a * 10 ^ b.length + digitsToNat b := by
  show (a ++ b).foldl _ 0 = _
  rw [List.foldl_append, foldl_digits]
  rfl

lemma digitsToNat_cons (c : Char) (t : Str) :
    digitsToNat (c :: t) = digitVal c * 10 ^ t.length + digitsToNat t := by
  have := digitsToNat_append [c] t
  simpa [digitsToNat, digitVal] using this

lemma digitsToNat_zeros_append (j : Nat) (s : Str) :
    digitsToNat (List.replicate j '0' ++ s) = digitsToNat s := by
  induction j with
  | zero => simp
  | succ n ih =>
    rw [List.replicate_succ, List.cons_append, digitsToNat_cons, ih]
    have : digitVal '0' = 0 := by decide
    simp [this]

lemma natDigitsAux_mem {fuel n : Nat} :
    ∀ c ∈ natDigitsAux fuel n, c ∈ digitChars := by
  induction fuel generalizing n with
  | zero => intro c hc; simp [natDigitsAux] at hc
  | succ f ih =>
    intro c hc
    rw [natDigitsAux] at hc
    by_cases h : n < 10
    · simp [h] at hc; subst hc; exact digitChar_mem h
    · simp [h] at hc
      rcases hc with hc | hc
      · exact ih _ hc
      · subst hc; exact digitChar_mem (Nat.mod_lt _ (by norm_num))

lemma natDigitsAux_ne_nil {fuel n : Nat} : natDigitsAux (fuel + 1) n ≠ [] := by
  rw [natDigitsAux]
  by_cases h : n < 10 <;> simp [h]

lemma digitsToNat_natDigitsAux {fuel n : Nat} (h : n < 10 ^ fuel) :
    digitsToNat (natDigitsAux fuel n) = n := by
  induction fuel generalizing n with
  | zero => simp at h; simp [h, natDigitsAux, digitsToNat]
  | succ f ih =>
    rw [natDigitsAux]
    by_cases hn : n < 10
    · simp only [hn, if_true]
      rw [digitsToNat_cons]
      simp [digitsToNat, digitVal_digitChar hn]
    · simp only [hn, if_false]
      rw [digitsToNat_append]
      have hdiv : n / 10 < 10 ^ f := by
        rw [Nat.div_lt_iff_lt_mul (by norm_num)]
        calc n < 10 ^ (f + 1) := h
        _ = 10 ^ f * 10 := by ring
      rw [ih hdiv]
      have : digitsToNat [digitChar (n % 10)] = n % 10 := by
        simp [digitsToNat, digitVal_digitChar (Nat.mod_lt _ (by norm_num : (0:Nat) < 10))]
      rw [this]
      simp
      omega

lemma natToStr_mem {n : Nat} : ∀ c ∈ natToStr n, c ∈ digitChars :=
  natDigitsAux_mem

lemma natToStr_ne_nil {n : Nat} : natToStr n ≠ [] := natDigitsAux_ne_nil

lemma digitsToNat_natToStr (n : Nat) : digitsToNat (natToStr n) = n := by
  apply digitsToNat_natDigitsAux
  calc n < 2 ^ n := Nat.lt_two_pow n
  _ ≤ 10 ^ n := Nat.pow_le_pow_left (by norm_num) n
  _ ≤ 10 ^ (n + 1) := Nat.pow_le_pow_right (by norm_num) (Nat.le_succ n)

lemma takeWhile_append_all {p : Char → Bool} {a : Str} (b : Str)
    (h : ∀ c ∈ a, p c = true) : (a ++ b).takeWhile p = a ++ b.takeWhile p := by
  induction a with
  | nil => simp
  | cons c t ih =>
    have hc := h c (by simp)
    simp [List.takeWhile_cons, hc, ih (fun x hx => h x (by simp [hx]))]

lemma dropWhile_append_all {p : Char → Bool} {a : Str} (b : Str)
    (h : ∀ c ∈ a, p c = true) : (a ++ b).dropWhile p = b.dropWhile p := by
  induction a with
  | nil => simp
  | cons c t ih =>
    have hc := h c (by simp)
    simp [List.dropWhile_cons, hc, ih (fun x hx => h x (by simp [hx]))]

lemma takeWhile_all {p : Char → Bool} {a : Str} (h : ∀ c ∈ a, p c = true) :
    a.takeWhile p = a := by
  have := takeWhile_append_all (a := a) [] h
  simpa using this

lemma dropWhile_all {p : Char → Bool} {a : Str} (h : ∀ c ∈ a, p c = true) :
    a.dropWhile p = [] := by
  have := dropWhile_append_all (a := a) [] h
  simpa using this

lemma takeWhile_cons_neg {p : Char → Bool} {c : Char} (r : Str) (h : p c = false) :
    (c :: r).takeWhile p = [] := by
  simp [List.takeWhile_cons, h]

lemma dropWhile_cons_neg {p : Char → Bool} {c : Char} (r : Str) (h : p c = false) :
    (c :: r).dropWhile p = c :: r := by
  simp [List.dropWhile_cons, h]

lemma findDecExpAux_dvd {den : Nat} :
    ∀ {k fuel k'}, findDecExpAux den k fuel = some k' → den ∣ 10 ^ k' := by
  intro k fuel
  induction fuel generalizing k with
  | zero => intro k' h; simp [findDecExpAux] at h
  | succ f ih =>
    intro k' h
    rw [findDecExpAux] at h
    by_cases hd : 10 ^ k % den = 0
    · simp [hd] at h; subst h; exact Nat.dvd_of_mod_eq_zero hd
    · simp [hd] at h; exact ih h

lemma decimalString_mem {m k : Nat} :
    ∀ c ∈ decimalString m k, c ∈ digitChars ∨ c = '.' := by
  intro c hc
  rw [decimalString] at hc
  by_cases hk : k = 0
  · simp only [hk, if_true] at hc
    exact Or.inl (natToStr_mem c hc)
  · simp only [hk, if_false] at hc
    set ds' : Str := List.replicate (k + 1 - (natToStr m).length) '0' ++ natToStr m with hds'
    have hall : ∀ x ∈ ds', x ∈ digitChars := by
      intro x hx
      rcases List.mem_append.mp hx with hx | hx
      · rw [List.eq_of_mem_replicate hx]; decide
      · exact natToStr_mem x hx
    rcases List.mem_append.mp hc with hc | hc
    · exact Or.inl (hall c (List.mem_of_mem_take hc))
    · rcases List.mem_cons.mp hc with rfl | hc
      · exact Or.inr rfl
      · exact Or.inl (hall c (List.mem_of_mem_drop hc))

lemma parseMantissa_digits {I : Str} (hI : ∀ c ∈ I, c ∈ digitChars) (hne : I ≠ []) :
    parseMantissa I = some ((digitsToNat I : ℚ), []) := by
  have hdig : ∀ c ∈ I, jsIsDigit c = true := fun c hc => (mem_digitChars_facts (hI c hc)).1
  rw [parseMantissa]
  simp only [takeWhile_all hdig, dropWhile_all hdig]
  simp [hne]

lemma parseMantissa_digits_dot {I F : Str} (hI : ∀ c ∈ I, c ∈ digitChars)
    (hF : ∀ c ∈ F, c ∈ digitChars) (hne : I ≠ []) :
    parseMantissa (I ++ '.' :: F) =
      some ((digitsToNat I : ℚ) + (digitsToNat F : ℚ) / (10 : ℚ) ^ F.length, []) := by
  have hdigI : ∀ c ∈ I, jsIsDigit c = true := fun c hc => (mem_digitChars_facts (hI c hc)).1
  have hdigF : ∀ c ∈ F, jsIsDigit c = true := fun c hc => (mem_digitChars_facts (hF c hc)).1
  have hdot : jsIsDigit '.' = false := by decide
  rw [parseMantissa]
  simp only [takeWhile_append_all _ hdigI, dropWhile_append_all _ hdigI,
    takeWhile_cons_neg _ hdot, dropWhile_cons_neg _ hdot]
  simp only [List.append_nil]
  simp [takeWhile_all hdigF, dropWhile_all hdigF, hne]

lemma parseUnsigned_decimalString (m k : Nat) :
    parseUnsigned (decimalString m k) = some ((m : ℚ) / (10 : ℚ) ^ k) := by
  by_cases hk : k = 0
  · subst hk
    rw [decimalString]
    simp only [if_true]
    rw [parseUnsigned, parseMantissa_digits natToStr_mem natToStr_ne_nil]
    simp [parseExponent, applyExponent, digitsToNat_natToStr]
  · rw [decimalString]
    simp only [hk, if_false]
    set ds : Str := natToStr m with hds
    set ds' : Str := List.replicate (k + 1 - ds.length) '0' ++ ds with hds'
    have hall : ∀ x ∈ ds', x ∈ digitChars := by
      intro x hx
      rcases List.mem_append.mp hx with hx | hx
      · rw [List.eq_of_mem_replicate hx]; decide
      · exact natToStr_mem x hx
    have hlen : k + 1 ≤ ds'.length := by
      rw [hds', List.length_append, List.length_replicate]
      omega
    set I : Str := ds'.take (ds'.length - k) with hI
    set F : Str := ds'.drop (ds'.length - k) with hF
    have hIF : I ++ F = ds' := List.take_append_drop _ _
    have hFlen : F.length = k := by
      rw [hF, List.length_drop]
      omega
    have hIlen : I.length = ds'.length - k := by
      rw [hI, List.length_take]
      omega
    have hIne : I ≠ [] := by
      intro h
      rw [h] at hIlen
      simp at hIlen
      omega
    have hImem : ∀ c ∈ I, c ∈ digitChars := fun c hc => hall c (List.mem_of_mem_take hc)
    have hFmem : ∀ c ∈ F, c ∈ digitChars := fun c hc => hall c (List.mem_of_mem_drop hc)
    have hval : digitsToNat I * 10 ^ k + digitsToNat F = m := by
      have h1 : digitsToNat (I ++ F) = digitsToNat I * 10 ^ F.length + digitsToNat F :=
        digitsToNat_append I F
      rw [hIF, hds', digitsToNat_zeros_append, hds, digitsToNat_natToStr] at h1
      rw [hFlen] at h1
      omega
    rw [parseUnsigned, parseMantissa_digits_dot hImem hFmem hIne]
    simp only [parseExponent, applyExponent, hFlen]
    norm_num
    have hm : (m : ℚ) = (digitsToNat I : ℚ) * 10 ^ k + digitsToNat F := by
      exact_mod_cast hval.symm
    rw [hm]
    field_simp

lemma decimalString_head (m k : Nat) :
    ∃ c rest, decimalString m k = c :: rest ∧ c ∈ digitChars := by
  rw [decimalString]
  by_cases hk : k = 0
  · simp only [hk, if_true]
    rcases hc : natToStr m with _ | ⟨c, rest⟩
    · exact absurd hc natToStr_ne_nil
    · exact ⟨c, rest, rfl, natToStr_mem c (by rw [hc]; simp)⟩
  · simp only [hk, if_false]
    set ds : Str := natToStr m with hds
    set ds' : Str := List.replicate (k + 1 - ds.length) '0' ++ ds with hds'
    have hall : ∀ x ∈ ds', x ∈ digitChars := by
      intro x hx
      rcases List.mem_append.mp hx with hx | hx
      · rw [List.eq_of_mem_replicate hx]; decide
      · exact natToStr_mem x hx
    have hlen : k + 1 ≤ ds'.length := by
      rw [hds', List.length_append, List.length_replicate]
      omega
    rcases ht : ds'.take (ds'.length - k) with _ | ⟨c, rest⟩
    · exfalso
      have : (ds'.take (ds'.length - k)).length = ds'.length - k := by
        rw [List.length_take]; omega
      rw [ht] at this
      simp at this
      omega
    · refine ⟨c, rest ++ '.' :: ds'.drop (ds'.length - k), by simp [ht], ?_⟩
      have : c ∈ ds'.take (ds'.length - k) := by rw [ht]; simp
      exact hall c (List.mem_of_mem_take this)

lemma jsParseFloat_decimalString (m k : Nat) :
    jsParseFloat (decimalString m k) = some ((m : ℚ) / (10 : ℚ) ^ k) := by
  obtain ⟨c, rest, heq, hc⟩ := decimalString_head m k
  obtain ⟨_, hws, _, hminus, hplus, _⟩ := mem_digitChars_facts hc
  rw [jsParseFloat, heq, dropWhile_cons_neg _ hws]
  simp only [hminus, hplus, if_false]
  rw [← heq, parseUnsigned_decimalString]

lemma jsParseFloat_ratToJSNonneg {q : ℚ} {k : Nat} (hq : 0 ≤ q)
    (h : findDecExp q.den = some k) :
    jsParseFloat (ratToJSNonneg q) = some q := by
  rw [ratToJSNonneg, h, jsParseFloat_decimalString]
  congr 1
  have hdvd : q.den ∣ 10 ^ k := findDecExpAux_dvd h
  have hden : (q.den : ℚ) ≠ 0 := by
    exact_mod_cast q.den_nz
  have hcast : ((10 ^ k / q.den : ℕ) : ℚ) = (10 : ℚ) ^ k / (q.den : ℚ) := by
    rw [Nat.cast_div hdvd hden]
    push_cast
    ring
  push_cast [hcast]
  have hnum : ((q.num.toNat : ℕ) : ℚ) = ((q.num : ℤ) : ℚ) := by
    exact_mod_cast Int.toNat_of_nonneg (Rat.num_nonneg.mpr hq)
  rw [hnum]
  have h10 : ((10 : ℚ) ^ k) ≠ 0 := by positivity
  calc ((q.num : ℤ) : ℚ) * ((10 : ℚ) ^ k / (q.den : ℚ)) / (10 : ℚ) ^ k
      = ((q.num : ℤ) : ℚ) / (q.den : ℚ) * ((10 : ℚ) ^ k / (10 : ℚ) ^ k) := by ring
  _ = q := by rw [div_self h10, mul_one, Rat.num_div_den]

lemma jsParseFloat_ratToJS {q : ℚ} (h : hasDecForm q = true) :
    jsParseFloat (ratToJS q) = some q := by
  rw [hasDecForm, Option.isSome_iff_exists] at h
  obtain ⟨k, hk⟩ := h
  rw [ratToJS]
  by_cases hq : q < 0
  · simp only [hq, if_true]
    have hden : (-q).den = q.den := Rat.den_neg_eq_den q
    have hk' : findDecExp ((-q).den) = some k := by rw [hden]; exact hk
    obtain ⟨c, rest, heq, hc⟩ := decimalString_head ((-q).num.toNat * (10 ^ k / (-q).den)) k
    have hshape : ratToJSNonneg (-q) = decimalString ((-q).num.toNat * (10 ^ k / (-q).den)) k := by
      rw [ratToJSNonneg, hk']
    have hws : jsIsWs '-' = false := by decide
    rw [jsParseFloat]
    rw [show ('-' :: ratToJSNonneg (-q)).dropWhile jsIsWs = '-' :: ratToJSNonneg (-q) from
      dropWhile_cons_neg _ hws]
    simp only [if_true, reduceIte]
    have hpos : (0 : ℚ) ≤ -q := by linarith
    have hparse : jsParseFloat (ratToJSNonneg (-q)) = some (-q) :=
      jsParseFloat_ratToJSNonneg hpos hk'
    rw [hshape] at hparse ⊢
    obtain ⟨_, hws2, _, hminus, hplus, _⟩ := mem_digitChars_facts hc
    rw [jsParseFloat, heq, dropWhile_cons_neg _ hws2] at hparse
    simp only [hminus, hplus, if_false] at hparse
    rw [heq, hparse]
    simp
  · simp only [hq, if_false]
    exact jsParseFloat_ratToJSNonneg (by linarith) hk

lemma splitOnChar_no_sep {sep : Char} {a : Str} (h : ∀ c ∈ a, c ≠ sep) :
    splitOnChar sep a = [a] := by
  induction a with
  | nil => rfl
  | cons c t ih =>
    rw [splitOnChar]
    rw [if_neg (h c (by simp))]
    rw [ih (fun x hx => h x (by simp [hx]))]

lemma splitOnChar_append_sep {sep : Char} {a : Str} (b : Str) (h : ∀ c ∈ a, c ≠ sep) :
    splitOnChar sep (a ++ sep :: b) = a :: splitOnChar sep b := by
  induction a with
  | nil => simp [splitOnChar]
  | cons c t ih =>
    rw [List.cons_append, splitOnChar, if_neg (h c (by simp))]
    rw [ih (fun x hx => h x (by simp [hx]))]

lemma splitOnChar_ne_nil {sep : Char} (s : Str) : splitOnChar sep s ≠ [] := by
  cases s with
  | nil => simp [splitOnChar]
  | cons c t =>
    rw [splitOnChar]
    by_cases h : c = sep
    · simp [h]
    · simp only [h, if_false]
      rcases hs : splitOnChar sep t with _ | _ <;> simp

lemma joinNl_append_nl (ls : List Str) (hne : ls ≠ []) (h : ∀ l ∈ ls, noNl l = true) :
    splitOnChar '\n' (joinNl ls ++ ['\n']) = ls ++ [[]] := by
  induction ls with
  | nil => exact absurd rfl hne
  | cons l rest ih =>
    have hl : ∀ c ∈ l, c ≠ '\n' := by
      have := h l (by simp)
      simpa [noNl, List.all_eq_true] using this
    cases rest with
    | nil =>
      show splitOnChar '\n' (l ++ '\n' :: []) = [l, []]
      rw [splitOnChar_append_sep [] hl]
      rfl
    | cons l2 rest2 =>
      show splitOnChar '\n' ((l ++ '\n' :: joinNl (l2 :: rest2)) ++ ['\n']) = _
      rw [List.append_assoc, List.cons_append]
      rw [splitOnChar_append_sep (joinNl (l2 :: rest2) ++ ['\n']) hl]
      rw [ih (by simp) (fun x hx => h x (by simp [hx]))]
      rfl

lemma dropWhile_append_last {p : Char → Bool} {c : Char} (h : p c = false) (a : Str) :
    ∃ y, (a ++ [c]).dropWhile p = y ++ [c] := by
  induction a with
  | nil => exact ⟨[], by simp [dropWhile_cons_neg _ h]⟩
  | cons d t ih =>
    by_cases hd : p d
    · obtain ⟨y, hy⟩ := ih
      exact ⟨y, by simp [List.dropWhile_cons, hd, hy]⟩
    · exact ⟨d :: t, by simp [List.dropWhile_cons, hd]⟩

lemma trimStr_cons_head {c : Char} (rest : Str) (h : jsIsWs c = false) :
    ∃ x, trimStr (c :: rest) = c :: x := by
  rw [trimStr, dropWhile_cons_neg _ h]
  rw [List.reverse_cons]
  obtain ⟨y, hy⟩ := dropWhile_append_last h rest.reverse
  exact ⟨y.reverse, by rw [hy]; simp⟩

lemma trimStr_eq_self {s : Str} (h1 : ∀ c, s.head? = some c → jsIsWs c = false)
    (h2 : ∀ c, s.getLast? = some c → jsIsWs c = false) : trimStr s = s := by
  cases s with
  | nil => rfl
  | cons c t =>
    rw [trimStr, dropWhile_cons_neg _ (h1 c rfl)]
    rcases hr : (c :: t).reverse with _ | ⟨d, u⟩
    · simp at hr
    · have hd : (c :: t).getLast? = some d := by
        rw [← List.head?_reverse, hr]
        rfl
      rw [dropWhile_cons_neg _ (h2 d hd), ← hr]
      simp

lemma trimStr_nil : trimStr [] = [] := rfl

lemma numChar_facts {c : Char} (h : numChar c) :
    c ≠ ',' ∧ c ≠ '\n' ∧ c ≠ '"' ∧ jsIsWs c = false := by
  rcases h with h | rfl | rfl
  · obtain ⟨_, h2, _, _, _, h6, h7, h8, _⟩ := mem_digitChars_facts h
    exact ⟨h6, h8, h7, h2⟩
  · exact ⟨by decide, by decide, by decide, by decide⟩
  · exact ⟨by decide, by decide, by decide, by decide⟩

lemma mem_ratToJSNonneg {q : ℚ} (h : hasDecForm q = true) :
    ∀ c ∈ ratToJSNonneg q, numChar c := by
  rw [hasDecForm, Option.isSome_iff_exists] at h
  obtain ⟨k, hk⟩ := h
  intro c hc
  rw [ratToJSNonneg, hk] at hc
  rcases decimalString_mem c hc with h' | h'
  · exact Or.inl h'
  · exact Or.inr (Or.inl h')

lemma mem_ratToJS {q : ℚ} (h : hasDecForm q = true) : ∀ c ∈ ratToJS q, numChar c := by
  intro c hc
  rw [ratToJS] at hc
  by_cases hq : q < 0
  · rw [if_pos hq] at hc
    rcases List.mem_cons.mp hc with rfl | hc
    · exact Or.inr (Or.inr rfl)
    · have h' : hasDecForm (-q) = true := by
        rw [hasDecForm, Rat.den_neg_eq_den]
        exact h
      exact mem_ratToJSNonneg h' c hc
  · rw [if_neg hq] at hc
    exact mem_ratToJSNonneg h c hc

lemma mem_jsToFixed {d : Nat} {q : ℚ} : ∀ c ∈ jsToFixed d q, numChar c := by
  intro c hc
  rw [jsToFixed] at hc
  by_cases hq : q < 0
  · rw [if_pos hq] at hc
    rcases List.mem_cons.mp hc with rfl | hc
    · exact Or.inr (Or.inr rfl)
    · rcases decimalString_mem c hc with h' | h'
      · exact Or.inl h'
      · exact Or.inr (Or.inl h')
  · rw [if_neg hq] at hc
    rcases decimalString_mem c hc with h' | h'
    · exact Or.inl h'
    · exact Or.inr (Or.inl h')

lemma mem_natToStr_numChar {n : Nat} : ∀ c ∈ natToStr n, numChar c :=
  fun c hc => Or.inl (natToStr_mem c hc)

lemma noComma_spec {s : Str} (h : noComma s = true) : ∀ c ∈ s, c ≠ ',' := by
  simpa [noComma, List.all_eq_true] using h

lemma noNl_spec {s : Str} (h : noNl s = true) : ∀ c ∈ s, c ≠ '\n' := by
  simpa [noNl, List.all_eq_true] using h

lemma noNl_append {a b : Str} : noNl (a ++ b) = (noNl a && noNl b) := by
  simp [noNl, List.all_append]

lemma noNl_cons {c : Char} {a : Str} : noNl (c :: a) = (decide (c ≠ '\n') && noNl a) := by
  simp [noNl, List.all_cons]

lemma noNl_of_numChar {s : Str} (h : ∀ c ∈ s, numChar c) : noNl s = true := by
  rw [noNl, List.all_eq_true]
  intro c hc
  simpa using (numChar_facts (h c hc)).2.1

lemma strStartsWith_ne_at {pat s : Str} :
    ∀ (i : Nat) {a b : Char}, pat[i]? = some a → s[i]? = some b → a ≠ b →
      strStartsWith pat s = false := by
  induction pat generalizing s with
  | nil => intro i a b hp; simp at hp
  | cons p ps ih =>
    intro i a b hp hs hab
    cases s with
    | nil => simp at hs
    | cons c cs =>
      cases i with
      | zero =>
        simp at hp hs
        subst hp; subst hs
        simp [strStartsWith, hab]
      | succ j =>
        simp only [List.getElem?_cons_succ] at hp hs
        rw [strStartsWith]
        cases hpc : decide (p = c) with
        | false => simp [hpc]
        | true =>
          simp only [hpc, Bool.true_and]
          exact ih j hp hs hab

lemma removeQuotes_quoted {desc : Str} (h : ∀ c ∈ desc, c ≠ '"') :
    removeQuotes ('"' :: desc ++ ['"']) = desc := by
  have h1 : desc.filter (fun c => c ≠ '"') = desc :=
    List.filter_eq_self.mpr (fun a ha => by simpa using h a ha)
  simp [removeQuotes, List.filter_append, h1]
  intro a ha
  exact h a ha

lemma cleanRec_spec {r : ExpenseRecord} (h : cleanRec r = true) :
    cleanDate r.date = true ∧ cleanDesc r.description = true ∧
      hasDecForm r.amount = true ∧ cleanCat r.category = true := by
  rw [cleanRec] at h
  simp only [Bool.and_eq_true] at h
  exact ⟨h.1.1.1, h.1.1.2, h.1.2, h.2⟩

lemma cleanDate_parts {s : Str} (h : cleanDate s = true) :
    noComma s = true ∧ noNl s = true := by
  rw [cleanDate.eq_def] at h
  simp only [Bool.and_eq_true] at h
  exact ⟨h.1.1, h.1.2⟩

lemma cleanDesc_parts {s : Str} (h : cleanDesc s = true) :
    noComma s = true ∧ noNl s = true ∧ ∀ c ∈ s, c ≠ '"' := by
  rw [cleanDesc] at h
  simp only [Bool.and_eq_true] at h
  refine ⟨h.1.1, h.1.2, ?_⟩
  simpa [List.all_eq_true] using h.2

lemma cleanCat_parts {s : Str} (h : cleanCat s = true) :
    noComma s = true ∧ noNl s = true := by
  rw [cleanCat.eq_def] at h
  simp only [Bool.and_eq_true] at h
  exact ⟨h.1.1, h.1.2⟩

lemma splitOnChar_rawRow {d desc amt cat : Str} (hd : ∀ c ∈ d, c ≠ ',')
    (hdesc : ∀ c ∈ desc, c ≠ ',') (hamt : ∀ c ∈ amt, c ≠ ',') (hcat : ∀ c ∈ cat, c ≠ ',') :
    splitOnChar ',' (rawRow d desc amt cat) = [d, '"' :: (desc ++ ['"']), amt, cat] := by
  have hshape : rawRow d desc amt cat =
      d ++ ',' :: (('"' :: (desc ++ ['"'])) ++ ',' :: (amt ++ ',' :: cat)) := by
    rw [rawRow]
    simp
  rw [hshape]
  rw [splitOnChar_append_sep _ hd]
  have hquoted : ∀ c ∈ ('"' :: (desc ++ ['"']) : Str), c ≠ ',' := by
    intro c hc
    rcases List.mem_cons.mp hc with rfl | hc
    · decide
    · rcases List.mem_append.mp hc with hc | hc
      · exact hdesc c hc
      · simp at hc
        subst hc
        decide
  rw [splitOnChar_append_sep _ hquoted]
  rw [splitOnChar_append_sep _ hamt]
  rw [splitOnChar_no_sep hcat]

lemma rawRow_noNl {d desc amt cat : Str} (h1 : noNl d = true) (h2 : noNl desc = true)
    (h4 : noNl amt = true) (h3 : noNl cat = true) : noNl (rawRow d desc amt cat) = true := by
  rw [rawRow]
  simp [noNl_append, noNl_cons, h1, h2, h3, h4]

lemma dataRow_eq_rawRow (r : ExpenseRecord) :
    dataRow r = rawRow r.date r.description (ratToJS r.amount) r.category := rfl

lemma dataRow_noNl {r : ExpenseRecord} (h : cleanRec r = true) : noNl (dataRow r) = true := by
  obtain ⟨hdate, hdesc, hdec, hcat⟩ := cleanRec_spec h
  rw [dataRow_eq_rawRow]
  exact rawRow_noNl (cleanDate_parts hdate).2 (cleanDesc_parts hdesc).2.1
    (noNl_of_numChar (mem_ratToJS hdec)) (cleanCat_parts hcat).2

lemma trimStr_rawRow (d desc amt cat : Str) (hdate : cleanDate d = true)
    (hcat : cleanCat cat = true) :
    trimStr (rawRow d desc amt cat) = rawRow d desc amt cat := by
  apply trimStr_eq_self
  · intro c hc
    cases d with
    | nil =>
      rw [rawRow] at hc
      simp at hc
      subst hc
      decide
    | cons d0 ds =>
      rw [rawRow, List.cons_append, List.head?_cons] at hc
      simp only [cleanDate, Bool.and_eq_true] at hdate
      have hws := hdate.2.1
      simp only [Option.some_inj] at hc
      subst hc
      simpa using hws
  · intro c hc
    have hshape : rawRow d desc amt cat =
        (d ++ ',' :: '"' :: (desc ++ '"' :: ',' :: amt)) ++ ',' :: cat := by
      rw [rawRow]
      simp
    rw [hshape, List.getLast?_append_cons] at hc
    cases cat with
    | nil =>
      simp at hc
      subst hc
      decide
    | cons e es =>
      rw [List.getLast?_cons_cons] at hc
      simp only [cleanCat, Bool.and_eq_true] at hcat
      have hcat2 := hcat.2
      rcases hlast : (e :: es : Str).getLast? with _ | w
      · simp [List.getLast?_eq_none_iff] at hlast
      · rw [hlast] at hc hcat2
        simp only [Option.some_inj] at hc
        subst hc
        simpa using hcat2


lemma strStartsWith_ne_get {pat s : Str} :
    ∀ (i : Nat) (a b : Char), pat.get? i = some a → s.get? i = some b → a ≠ b →
      strStartsWith pat s = false := by
  induction pat generalizing s with
  | nil =>
    intro i a b hp
    exact absurd hp (by cases i <;> simp [List.get?])
  | cons p ps ih =>
    intro i a b hp hs hab
    cases s with
    | nil => exact absurd hs (by cases i <;> simp [List.get?])
    | cons c cs =>
      cases i with
      | zero =>
        have hp' : some p = some a := hp
        have hs' : some c = some b := hs
        cases hp'; cases hs'
        simp [strStartsWith, hab]
      | succ j =>
        have hp' : ps.get? j = some a := hp
        have hs' : cs.get? j = some b := hs
        rw [strStartsWith]
        cases hpc : decide (p = c) with
        | false => simp [hpc]
        | true =>
          simp only [hpc, Bool.true_and]
          exact ih j a b hp' hs' hab

lemma parseLines_cons_hashline (b : Bool) (rest : List Str) (line : Str)
    (hline : ∃ y, line = '#' :: y) :
    parseLines b (line :: rest) = parseLines b rest := by
  obtain ⟨y, rfl⟩ := hline
  obtain ⟨y', hy'⟩ := trimStr_cons_head y (by decide : jsIsWs '#' = false)
  simp only [parseLines, hy']
  rw [if_neg (by simp), if_pos (by simp [strStartsWith])]

lemma parseLines_skip_hash {ls : List Str} (h : ∀ l ∈ ls, ∃ y, l = '#' :: y) :
    ∀ (b : Bool) (tail : List Str), parseLines b (ls ++ tail) = parseLines b tail := by
  induction ls with
  | nil => simp
  | cons l ls2 ih =>
    intro b tail
    rw [List.cons_append, parseLines_cons_hashline b _ l (h l (by simp))]
    exact ih (fun x hx => h x (by simp [hx])) b tail

lemma parseLines_cons_header {b : Bool} {tail : List Str} :
    parseLines b (headerRowStr :: tail) = parseLines true tail := by
  have ht : trimStr headerRowStr = headerRowStr := by decide
  simp only [parseLines, ht]
  rw [if_neg (by decide), if_neg (by decide), if_pos (by decide)]

lemma strStartsWith_hash_rawRow {d desc amt cat : Str} (hdate : cleanDate d = true) :
    strStartsWith ['#'] (rawRow d desc amt cat) = false := by
  rcases d with _ | ⟨d0, ds⟩
  · exact strStartsWith_ne_get 0 '#' ',' rfl rfl (by decide)
  · have hd' : d0 ≠ '#' := by
      simp only [cleanDate, Bool.and_eq_true] at hdate
      simpa using hdate.2.2
    exact strStartsWith_ne_get 0 '#' d0 rfl rfl (Ne.symm hd')

lemma strStartsWith_hdrSig_rawRow {d desc amt cat : Str} (hdate : cleanDate d = true) :
    strStartsWith hdrSig (rawRow d desc amt cat) = false := by
  rcases d with _ | ⟨a, _ | ⟨b, _ | ⟨c, _ | ⟨e, _ | ⟨f, t⟩⟩⟩⟩⟩
  · exact strStartsWith_ne_get 0 'D' ',' rfl rfl (by decide)
  · exact strStartsWith_ne_get 1 'a' ',' rfl rfl (by decide)
  · exact strStartsWith_ne_get 2 't' ',' rfl rfl (by decide)
  · exact strStartsWith_ne_get 3 'e' ',' rfl rfl (by decide)
  · exact strStartsWith_ne_get 5 'D' '"' rfl rfl (by decide)
  · have hf : f ∈ (a :: b :: c :: e :: f :: t : Str) := by simp
    have hne : ',' ≠ f := Ne.symm (noComma_spec (cleanDate_parts hdate).1 f hf)
    exact strStartsWith_ne_get 4 ',' f rfl rfl hne

lemma parseLines_cons_rawRow {d desc amt cat : Str} {tail : List Str}
    (hdate : cleanDate d = true) (hdesc : cleanDesc desc = true)
    (hamt : ∀ c ∈ amt, c ≠ ',') (hcat : cleanCat cat = true) :
    parseLines true (rawRow d desc amt cat :: tail) =
      (match jsParseFloat amt with
       | some a => (⟨d, removeQuotes ('"' :: (desc ++ ['"'])), a, cat⟩ : ExpenseRecord) ::
           parseLines true tail
       | none => parseLines true tail) := by
  have htrim := trimStr_rawRow d desc amt cat hdate hcat
  have hsplit := splitOnChar_rawRow (noComma_spec (cleanDate_parts hdate).1)
    (noComma_spec (cleanDesc_parts hdesc).1) hamt (noComma_spec (cleanCat_parts hcat).1)
  have hne : rawRow d desc amt cat ≠ [] := by
    cases d <;> rw [rawRow] <;> simp
  simp only [parseLines, htrim, hsplit, List.getD_cons_zero, List.getD_cons_succ]
  rw [if_neg hne, if_neg (by rw [strStartsWith_hash_rawRow hdate]; simp),
    if_neg (by rw [strStartsWith_hdrSig_rawRow hdate]; simp)]
  rw [if_pos trivial, if_pos (by simp)]

lemma parseLines_cons_dataRow {r : ExpenseRecord} (h : cleanRec r = true) {tail : List Str} :
    parseLines true (dataRow r :: tail) = r :: parseLines true tail := by
  obtain ⟨hdate, hdesc, hdec, hcat⟩ := cleanRec_spec h
  rw [dataRow_eq_rawRow]
  rw [parseLines_cons_rawRow hdate hdesc
    (fun c hc => (numChar_facts (mem_ratToJS hdec c hc)).1) hcat]
  rw [jsParseFloat_ratToJS hdec]
  have hrq : removeQuotes ('"' :: (r.description ++ ['"'])) = r.description := by
    have := removeQuotes_quoted (cleanDesc_parts hdesc).2.2
    simpa using this
  rw [hrq]

lemma parseLines_cons_corrupt {d desc amt cat : Str} {tail : List Str}
    (hdate : cleanDate d = true) (hdesc : cleanDesc desc = true)
    (hamt : ∀ c ∈ amt, c ≠ ',') (hcat : cleanCat cat = true)
    (hnan : jsParseFloat amt = none) :
    parseLines true (rawRow d desc amt cat :: tail) = parseLines true tail := by
  rw [parseLines_cons_rawRow hdate hdesc hamt hcat, hnan]

lemma parseLines_rows_append {R : List ExpenseRecord} (hR : ∀ r ∈ R, cleanRec r = true)
    (tail : List Str) :
    parseLines true (R.map dataRow ++ tail) = R ++ parseLines true tail := by
  induction R with
  | nil => simp
  | cons r R2 ih =>
    rw [List.map_cons, List.cons_append, parseLines_cons_dataRow (hR r (by simp))]
    rw [ih (fun x hx => hR x (by simp [hx]))]
    rfl

lemma parseLines_empty_end : parseLines true [[]] = [] := by
  simp [parseLines, trimStr_nil]

lemma parseLines_rows {R : List ExpenseRecord} (hR : ∀ r ∈ R, cleanRec r = true) :
    parseLines true (R.map dataRow ++ [[]]) = R := by
  rw [parseLines_rows_append hR, parseLines_empty_end, List.append_nil]


lemma breakdownLinesOf_hash {R : List ExpenseRecord} :
    ∀ l ∈ breakdownLinesOf R, ∃ y, l = '#' :: y := by
  intro l hl
  rw [breakdownLinesOf] at hl
  simp only [List.mem_map] at hl
  obtain ⟨cat, _, rfl⟩ := hl
  exact ⟨_, rfl⟩

lemma noNl_jsToFixed {d : Nat} {q : ℚ} : noNl (jsToFixed d q) = true :=
  noNl_of_numChar mem_jsToFixed

lemma noNl_pctStr {t a : ℚ} : noNl (pctStr t a) = true := by
  rw [pctStr]
  split
  · exact noNl_jsToFixed
  · decide

lemma noNl_natToStr {n : Nat} : noNl (natToStr n) = true :=
  noNl_of_numChar mem_natToStr_numChar

lemma noNl_breakdownLine {t a : ℚ} {cat : Str} (hcat : cat ∈ standardCategories) :
    noNl (breakdownLine t cat a) = true := by
  have hc : noNl cat = true := by
    rw [standardCategories] at hcat
    simp only [List.mem_cons, List.not_mem_nil, or_false] at hcat
    rcases hcat with rfl | rfl | rfl | rfl | rfl | rfl <;> decide
  rw [breakdownLine]
  simp only [noNl_append, hc, noNl_jsToFixed, noNl_pctStr, Bool.and_true, Bool.true_and]
  decide

lemma headerLinesOf_noNl {ts : Str} {R : List ExpenseRecord} (hts : cleanTimestamp ts = true) :
    ∀ l ∈ headerLinesOf ts R, noNl l = true := by
  intro l hl
  rw [headerLinesOf] at hl
  simp only [List.mem_append, List.mem_cons, List.not_mem_nil, or_false] at hl
  rcases hl with (hseven | hbd) | (rfl | rfl)
  · rcases hseven with rfl | rfl | rfl | rfl | rfl | rfl | rfl
    · decide
    · rw [noNl_append]
      rw [cleanTimestamp] at hts
      simp [hts]
      decide
    · decide
    · rw [noNl_append]
      simp [noNl_jsToFixed]
      decide
    · rw [noNl_append]
      simp [noNl_natToStr]
      decide
    · decide
    · decide
  · obtain ⟨cat, hcat, rfl⟩ : ∃ cat ∈ standardCategories,
        breakdownLine (totalOf R) cat (catTotal R cat) = l := by
      rw [breakdownLinesOf] at hbd
      simpa using hbd
    exact noNl_breakdownLine hcat
  · decide
  · decide

lemma parseLines_header_block (ts : Str) (R : List ExpenseRecord) (rows : List Str) :
    parseLines false (headerLinesOf ts R ++ rows) = parseLines true rows := by
  rw [headerLinesOf]
  simp only [List.append_assoc, List.cons_append, List.nil_append]
  rw [parseLines_cons_hashline false _ ("# KwentaKo Expense Tracker".toList) ⟨_, rfl⟩]
  rw [parseLines_cons_hashline false _ ("# Generated: ".toList ++ ts) ⟨_, rfl⟩]
  rw [parseLines_cons_hashline false _ ("# Creator: Eli Bautista".toList) ⟨_, rfl⟩]
  rw [parseLines_cons_hashline false _ ("# Total Expenses: PHP ".toList ++
    jsToFixed 2 (totalOf R)) ⟨_, rfl⟩]
  rw [parseLines_cons_hashline false _ ("# Total Records: ".toList ++
    natToStr R.length) ⟨_, rfl⟩]
  rw [parseLines_cons_hashline false _ (['#']) ⟨_, rfl⟩]
  rw [parseLines_cons_hashline false _ ("# CATEGORY BREAKDOWN:".toList) ⟨_, rfl⟩]
  rw [parseLines_skip_hash breakdownLinesOf_hash]
  rw [parseLines_cons_hashline false _ (['#']) ⟨_, rfl⟩]
  rw [parseLines_cons_header]

lemma parse_docWithRows (ts : Str) (R : List ExpenseRecord) (rows : List Str)
    (hts : cleanTimestamp ts = true) (hrowsN : ∀ l ∈ rows, noNl l = true) :
    parseExistingCSV (docWithRows ts R rows) = parseLines true (rows ++ [[]]) := by
  rw [parseExistingCSV, docWithRows]
  have hnoNl : ∀ l ∈ headerLinesOf ts R ++ rows, noNl l = true := by
    intro l hl
    rcases List.mem_append.mp hl with hl | hl
    · exact headerLinesOf_noNl hts l hl
    · exact hrowsN l hl
  have hnonempty : headerLinesOf ts R ++ rows ≠ [] := by
    rw [headerLinesOf]
    simp
  rw [joinNl_append_nl _ hnonempty hnoNl]
  rw [List.append_assoc]
  rw [parseLines_header_block]

lemma parse_generateCompleteCSV (ts : Str) (R : List ExpenseRecord)
    (hts : cleanTimestamp ts = true) (hR : ∀ r ∈ R, cleanRec r = true) :
    parseExistingCSV (generateCompleteCSV ts R) = R := by
  have h1 : generateCompleteCSV ts R = docWithRows ts R (R.map dataRow) := rfl
  have hrowsN : ∀ l ∈ R.map dataRow, noNl l = true := by
    intro l hl
    obtain ⟨r, hr, rfl⟩ := List.mem_map.mp hl
    exact dataRow_noNl (hR r hr)
  rw [h1, parse_docWithRows ts R _ hts hrowsN, parseLines_rows hR]

lemma parse_corrupt_doc (ts : Str) (R1 R2 : List ExpenseRecord) (d desc amt cat : Str)
    (hts : cleanTimestamp ts = true) (hR : ∀ r ∈ R1 ++ R2, cleanRec r = true)
    (hdate : cleanDate d = true) (hdesc : cleanDesc desc = true)
    (hamtC : ∀ c ∈ amt, c ≠ ',') (hamtN : noNl amt = true) (hcat : cleanCat cat = true)
    (hnan : jsParseFloat amt = none) :
    parseExistingCSV (docWithRows ts (R1 ++ R2)
      (R1.map dataRow ++ rawRow d desc amt cat :: R2.map dataRow)) = R1 ++ R2 := by
  have hR1 : ∀ r ∈ R1, cleanRec r = true := fun r hr => hR r (by simp [hr])
  have hR2 : ∀ r ∈ R2, cleanRec r = true := fun r hr => hR r (by simp [hr])
  have hrowsN : ∀ l ∈ R1.map dataRow ++ rawRow d desc amt cat :: R2.map dataRow,
      noNl l = true := by
    intro l hl
    rcases List.mem_append.mp hl with hl | hl
    · obtain ⟨r, hr, rfl⟩ := List.mem_map.mp hl
      exact dataRow_noNl (hR1 r hr)
    · rcases List.mem_cons.mp hl with rfl | hl
      · exact rawRow_noNl (cleanDate_parts hdate).2 (cleanDesc_parts hdesc).2.1 hamtN
          (cleanCat_parts hcat).2
      · obtain ⟨r, hr, rfl⟩ := List.mem_map.mp hl
        exact dataRow_noNl (hR2 r hr)
  rw [parse_docWithRows _ _ _ hts hrowsN]
  simp only [List.append_assoc, List.cons_append]
  rw [parseLines_rows_append hR1]
  rw [parseLines_cons_corrupt hdate hdesc hamtC hcat hnan]
  rw [parseLines_rows hR2]


lemma aiLoop_all_transient (tr : Nat → AIResponse) (date text : Str) (maxR : Nat)
    (htr : ∀ i, 1 ≤ i → i ≤ maxR → ∃ e, tr i = AIResponse.err e ∧ isTransientMsg e = true) :
    ∀ (fuel attempt : Nat), attempt + fuel = maxR + 1 → 1 ≤ attempt → attempt ≤ maxR →
      aiLoop tr date text maxR attempt fuel =
        (Except.ok (parseExpensesManually date text), List.range' attempt fuel) := by
  intro fuel
  induction fuel with
  | zero =>
    intro attempt h1 h2 h3
    exact absurd h1 (by omega)
  | succ f ih =>
    intro attempt h1 h2 h3
    obtain ⟨e, he, het⟩ := htr attempt h2 h3
    rw [aiLoop, he]
    simp only [het, if_true]
    by_cases hlt : attempt < maxR
    · rw [if_pos hlt, ih (attempt + 1) (by omega) (by omega) (by omega)]
      rw [List.range'_succ]
    · rw [if_neg hlt]
      have hf : f = 0 := by omega
      subst hf
      rfl

lemma aiLoop_nontransient (tr : Nat → AIResponse) (date text : Str) (maxR a : Nat) (e : Str)
    (ha2 : a ≤ maxR)
    (hbefore : ∀ i, 1 ≤ i → i < a → ∃ e2, tr i = AIResponse.err e2 ∧ isTransientMsg e2 = true)
    (hat : tr a = AIResponse.err e) (hnt : isTransientMsg e = false) :
    ∀ (fuel attempt : Nat), attempt + fuel = maxR + 1 → 1 ≤ attempt → attempt ≤ a →
      aiLoop tr date text maxR attempt fuel =
        (if a < maxR then (Except.error e, List.range' attempt (a + 1 - attempt))
         else (Except.ok (parseExpensesManually date text),
           List.range' attempt (a + 1 - attempt))) := by
  intro fuel
  induction fuel with
  | zero =>
    intro attempt h1 h2 h3
    exact absurd h1 (by omega)
  | succ f ih =>
    intro attempt h1 h2 h3
    by_cases heq : attempt = a
    · subst heq
      rw [aiLoop, hat]
      simp only [hnt, Bool.false_eq_true, if_false]
      have hrange : attempt + 1 - attempt = 1 := by omega
      rw [hrange]
      by_cases hm : attempt = maxR
      · subst hm
        rw [if_pos rfl, if_neg (lt_irrefl _)]
        rfl
      · rw [if_neg hm]
        have hlt : attempt < maxR := by omega
        rw [if_pos hlt]
        rfl
    · have hlt : attempt < a := by omega
      obtain ⟨e2, he2, het2⟩ := hbefore attempt h2 hlt
      rw [aiLoop, he2]
      simp only [het2, if_true]
      rw [if_pos (by omega : attempt < maxR)]
      rw [ih (attempt + 1) (by omega) (by omega) (by omega)]
      have hr1 : a + 1 - attempt = (a - attempt) + 1 := by omega
      have hr2 : a + 1 - (attempt + 1) = a - attempt := by omega
      rw [hr1, hr2, List.range'_succ]
      by_cases hcase : a < maxR <;> simp [hcase]

lemma parseExpensesManually_singleton (date text : Str) :
    ∃ r, parseExpensesManually date text = [r] := ⟨_, rfl⟩

lemma upsertTotal_ne_nil {cat : Str} {amt : ℚ} {l : List (Str × ℚ)} :
    upsertTotal cat amt l ≠ [] := by
  cases l with
  | nil => simp [upsertTotal]
  | cons p t =>
    rw [upsertTotal]
    split <;> simp

lemma statsFold_totals_ne_nil :
    ∀ (rows : List (List Str)) (acc : ℚ × Nat × List (Str × ℚ)),
      (acc.2.1 ≠ 0 → acc.2.2 ≠ []) →
      ((rows.foldl statsStep acc).2.1 ≠ 0 → (rows.foldl statsStep acc).2.2 ≠ []) := by
  intro rows
  induction rows with
  | nil => intro acc h; exact h
  | cons row rest ih =>
    intro acc h
    rw [List.foldl_cons]
    apply ih
    rw [statsStep]
    rcases jsParseFloat (row.getD 2 []) with _ | amt
    · exact h
    · intro _
      exact upsertTotal_ne_nil

lemma getStatsFromSheet_stats {values : Option (List (List Str))}
    {cnt : Nat} {tot avg : ℚ} {top : Str × ℚ} {cts : List (Str × ℚ)}
    (h : getStatsFromSheet values = StatsResult.stats cnt tot avg top cts) :
    top = reduceTop cts ∧ cts ≠ [] := by
  rw [getStatsFromSheet.eq_def] at h
  set rows := (match values with | some vs => vs.drop 1 | none => []) with hrows
  set acc := rows.foldl statsStep (0, 0, []) with hacc
  by_cases hz : acc.2.1 = 0
  · rw [if_pos hz] at h
    exact absurd h (by simp)
  · rw [if_neg hz] at h
    simp only [StatsResult.stats.injEq] at h
    obtain ⟨_, _, _, htop, hcts⟩ := h
    subst hcts
    refine ⟨htop.symm, ?_⟩
    exact statsFold_totals_ne_nil rows (0, 0, []) (fun hq => absurd rfl hq) hz

lemma foldl_pickTop_spec :
    ∀ (l : List (Str × ℚ)) (a : Str × ℚ),
      (l.foldl pickTop a = a ∧ ∀ e ∈ l, e.2 < a.2) ∨
      (∃ l1 l2, l = l1 ++ l.foldl pickTop a :: l2 ∧ a.2 ≤ (l.foldl pickTop a).2 ∧
        (∀ e ∈ l, e.2 ≤ (l.foldl pickTop a).2) ∧ ∀ e ∈ l2, e.2 < (l.foldl pickTop a).2) := by
  intro l
  induction l with
  | nil => intro a; exact Or.inl ⟨rfl, by simp⟩
  | cons b t ih =>
    intro a
    by_cases hb : b.2 < a.2
    · have hfold : (b :: t).foldl pickTop a = t.foldl pickTop a := by
        rw [List.foldl_cons]
        congr 1
        rw [pickTop, if_pos hb]
      rw [hfold]
      rcases ih a with ⟨hra, hlt⟩ | ⟨l1, l2, heq, har, hall, hl2⟩
      · left
        refine ⟨hra, ?_⟩
        intro x hx
        rcases List.mem_cons.mp hx with rfl | hx
        · exact hb
        · exact hlt x hx
      · right
        refine ⟨b :: l1, l2, ?_, har, ?_, hl2⟩
        · rw [List.cons_append, ← heq]
        · intro x hx
          rcases List.mem_cons.mp hx with rfl | hx
          · exact le_trans (le_of_lt hb) har
          · exact hall x hx
    · have hab : a.2 ≤ b.2 := le_of_not_lt hb
      have hfold : (b :: t).foldl pickTop a = t.foldl pickTop b := by
        rw [List.foldl_cons]
        congr 1
        rw [pickTop, if_neg hb]
      rw [hfold]
      rcases ih b with ⟨hrb, hlt⟩ | ⟨l1, l2, heq, hbr, hall, hl2⟩
      · right
        refine ⟨[], t, ?_, ?_, ?_, ?_⟩
        · rw [hrb]
          rfl
        · rw [hrb]
          exact hab
        · intro x hx
          rw [hrb]
          rcases List.mem_cons.mp hx with rfl | hx
          · exact le_rfl
          · exact le_of_lt (hlt x hx)
        · rw [hrb]
          exact hlt
      · right
        refine ⟨b :: l1, l2, ?_, le_trans hab hbr, ?_, hl2⟩
        · rw [List.cons_append, ← heq]
        · intro x hx
          rcases List.mem_cons.mp hx with rfl | hx
          · exact hbr
          · exact hall x hx

lemma reduceTop_spec (entries : List (Str × ℚ)) (hne : entries ≠ [])
    (hpos : ∀ e ∈ entries, 0 ≤ e.2) :
    ∃ l1 l2, entries = l1 ++ reduceTop entries :: l2 ∧
      (∀ e ∈ entries, e.2 ≤ (reduceTop entries).2) ∧
      ∀ e ∈ l2, e.2 < (reduceTop entries).2 := by
  rw [reduceTop]
  rcases foldl_pickTop_spec entries ([], 0) with ⟨hr, hlt⟩ | ⟨l1, l2, heq, _, hall, hl2⟩
  · exfalso
    rcases entries with _ | ⟨p, t⟩
    · exact hne rfl
    · have h1 := hlt p (by simp)
      have h2 := hpos p (by simp)
      simp at h1
      linarith
  · exact ⟨l1, l2, heq, hall, hl2⟩

lemma parseMantissa_nonneg {s : Str} {q : ℚ} {r : Str}
    (h : parseMantissa s = some (q, r)) : 0 ≤ q := by
  rw [parseMantissa] at h
  split at h
  · simp only [] at h
    split at h
    · simp at h
    · simp only [Option.some_inj, Prod.mk.injEq] at h
      rw [← h.1]
      positivity
  · split at h
    · simp at h
    · simp only [Option.some_inj, Prod.mk.injEq] at h
      rw [← h.1]
      positivity

lemma applyExponent_nonneg {q : ℚ} (hq : 0 ≤ q) (e : Int) : 0 ≤ applyExponent q e := by
  cases e with
  | ofNat n =>
    rw [applyExponent]
    positivity
  | negSucc n =>
    rw [applyExponent]
    positivity

lemma parseUnsigned_nonneg {s : Str} {q : ℚ} (h : parseUnsigned s = some q) : 0 ≤ q := by
  rw [parseUnsigned] at h
  split at h
  · rename_i v rest heq
    simp only [Option.some_inj] at h
    rw [← h]
    exact applyExponent_nonneg (parseMantissa_nonneg heq) _
  · simp at h

lemma jsParseFloat_digitHead_nonneg {s : Str} {q : ℚ}
    (hh : ∃ c cs, s = c :: cs ∧ jsIsDigit c = true) (h : jsParseFloat s = some q) : 0 ≤ q := by
  obtain ⟨c, cs, rfl, hc⟩ := hh
  have hws : jsIsWs c = false := by
    cases hws : jsIsWs c
    · rfl
    · exfalso
      simp only [jsIsWs, Bool.or_eq_true, decide_eq_true_eq] at hws
      rcases hws with ((((rfl | rfl) | rfl) | rfl) | rfl) | rfl <;>
        exact absurd hc (by decide)
  have hminus : c ≠ '-' := fun he => by subst he; exact absurd hc (by decide)
  have hplus : c ≠ '+' := fun he => by subst he; exact absurd hc (by decide)
  rw [jsParseFloat, dropWhile_cons_neg _ hws] at h
  simp only [hminus, hplus, if_false] at h
  exact parseUnsigned_nonneg h

lemma matchAmount_digitHead {s m r : Str} (h : matchAmount s = some (m, r)) :
    ∃ c cs, m = c :: cs ∧ jsIsDigit c = true := by
  rw [matchAmount] at h
  split at h
  · simp at h
  · rename_i hds
    rcases hts : s.takeWhile jsIsDigit with _ | ⟨c, cs⟩
    · exact absurd hts hds
    · have hmem : c ∈ s.takeWhile jsIsDigit := by rw [hts]; simp
      have hc := List.mem_takeWhile_imp hmem
      split at h
      · rename_i a b r3 heq2
        split at h
        · simp only [Option.some_inj, Prod.mk.injEq] at h
          refine ⟨c, cs ++ '.' :: a :: b :: [], ?_, hc⟩
          rw [← h.1, hts]
          simp
        · simp only [Option.some_inj, Prod.mk.injEq] at h
          exact ⟨c, cs, by rw [← h.1, hts], hc⟩
      · simp only [Option.some_inj, Prod.mk.injEq] at h
        exact ⟨c, cs, by rw [← h.1, hts], hc⟩

lemma orElse_eq_some {α : Type} {a b : Option α} {v : α} (h : (a <|> b) = some v) :
    a = some v ∨ b = some v := by
  cases a with
  | none => right; simpa using h
  | some x => left; simpa using h

lemma afterCurrency_digitHead {s m r : Str} (h : afterCurrency s = some (m, r)) :
    ∃ c cs, m = c :: cs ∧ jsIsDigit c = true := by
  rw [afterCurrency] at h
  exact matchAmount_digitHead h

lemma tryCurrency_digitHead {s m r : Str} (h : tryCurrency s = some (m, r)) :
    ∃ c cs, m = c :: cs ∧ jsIsDigit c = true := by
  rw [tryCurrency] at h
  rcases orElse_eq_some h with h1 | h
  · obtain ⟨s2, _, h2⟩ := Option.bind_eq_some.mp h1
    exact afterCurrency_digitHead h2
  rcases orElse_eq_some h with h1 | h
  · obtain ⟨s2, _, h2⟩ := Option.bind_eq_some.mp h1
    exact afterCurrency_digitHead h2
  rcases orElse_eq_some h with h1 | h
  · obtain ⟨s2, _, h2⟩ := Option.bind_eq_some.mp h1
    exact afterCurrency_digitHead h2
  rcases orElse_eq_some h with h1 | h
  · obtain ⟨s2, _, h2⟩ := Option.bind_eq_some.mp h1
    exact afterCurrency_digitHead h2
  exact afterCurrency_digitHead h

lemma afterKeyword_digitHead {s m r : Str} (h : afterKeyword s = some (m, r)) :
    ∃ c cs, m = c :: cs ∧ jsIsDigit c = true := by
  rw [afterKeyword] at h
  exact tryCurrency_digitHead h

lemma tryKeyword_digitHead {s m r : Str} (h : tryKeyword s = some (m, r)) :
    ∃ c cs, m = c :: cs ∧ jsIsDigit c = true := by
  rw [tryKeyword] at h
  rcases orElse_eq_some h with h1 | h
  · obtain ⟨s2, _, h2⟩ := Option.bind_eq_some.mp h1
    exact afterKeyword_digitHead h2
  rcases orElse_eq_some h with h1 | h
  · obtain ⟨s2, _, h2⟩ := Option.bind_eq_some.mp h1
    exact afterKeyword_digitHead h2
  rcases orElse_eq_some h with h1 | h
  · obtain ⟨s2, _, h2⟩ := Option.bind_eq_some.mp h1
    exact afterKeyword_digitHead h2
  rcases orElse_eq_some h with h1 | h
  · obtain ⟨s2, _, h2⟩ := Option.bind_eq_some.mp h1
    exact afterKeyword_digitHead h2
  exact afterKeyword_digitHead h

lemma pat0After_digitHead {rest amt : Str} (h : pat0After rest = some amt) :
    ∃ c cs, amt = c :: cs ∧ jsIsDigit c = true := by
  rw [pat0After.eq_def] at h
  split at h
  · split at h
    · obtain ⟨⟨m, r⟩, hk, hfst⟩ := Option.map_eq_some'.mp h
      subst hfst
      exact tryKeyword_digitHead hk
    · simp at h
  · simp at h

lemma pat0Lazy_digitHead :
    ∀ (s acc : Str) {g1 g2 : Str}, pat0Lazy acc s = some (g1, g2) →
      ∃ c cs, g2 = c :: cs ∧ jsIsDigit c = true := by
  intro s
  induction s with
  | nil => intro acc g1 g2 h; simp [pat0Lazy] at h
  | cons c rest ih =>
    intro acc g1 g2 h
    rw [pat0Lazy] at h
    split at h
    · simp at h
    · split at h
      · rename_i amt hamt
        simp only [Option.some_inj, Prod.mk.injEq] at h
        obtain ⟨_, h2⟩ := h
        subst h2
        exact pat0After_digitHead hamt
      · exact ih (c :: acc) h

lemma pat0Find_digitHead :
    ∀ (s : Str) {g1 g2 : Str}, pat0Find s = some (g1, g2) →
      ∃ c cs, g2 = c :: cs ∧ jsIsDigit c = true := by
  intro s
  induction s with
  | nil => intro g1 g2 h; simp [pat0Find] at h
  | cons c rest ih =>
    intro g1 g2 h
    rw [pat0Find] at h
    rcases orElse_eq_some h with h1 | h1
    · exact pat0Lazy_digitHead _ _ h1
    · exact ih h1

lemma pat1Num_digitHead {s amt d : Str} (h : pat1Num s = some (amt, d)) :
    ∃ c cs, amt = c :: cs ∧ jsIsDigit c = true := by
  rw [pat1Num] at h
  split at h
  · rename_i m r heq
    obtain ⟨d2, _, hpair⟩ := Option.map_eq_some'.mp h
    simp only [Prod.mk.injEq] at hpair
    obtain ⟨h1, _⟩ := hpair
    subst h1
    exact matchAmount_digitHead heq
  · simp at h

lemma pat1AtPos_digitHead {s amt d : Str} (h : pat1AtPos s = some (amt, d)) :
    ∃ c cs, amt = c :: cs ∧ jsIsDigit c = true := by
  rw [pat1AtPos] at h
  rcases orElse_eq_some h with h1 | h
  · obtain ⟨s2, _, h2⟩ := Option.bind_eq_some.mp h1
    exact pat1Num_digitHead h2
  rcases orElse_eq_some h with h1 | h
  · obtain ⟨s2, _, h2⟩ := Option.bind_eq_some.mp h1
    exact pat1Num_digitHead h2
  rcases orElse_eq_some h with h1 | h
  · obtain ⟨s2, _, h2⟩ := Option.bind_eq_some.mp h1
    exact pat1Num_digitHead h2
  rcases orElse_eq_some h with h1 | h
  · obtain ⟨s2, _, h2⟩ := Option.bind_eq_some.mp h1
    exact pat1Num_digitHead h2
  exact pat1Num_digitHead h

lemma pat1Find_digitHead :
    ∀ (s : Str) {amt d : Str}, pat1Find s = some (amt, d) →
      ∃ c cs, amt = c :: cs ∧ jsIsDigit c = true := by
  intro s
  induction s with
  | nil => intro amt d h; simp [pat1Find] at h
  | cons c rest ih =>
    intro amt d h
    rw [pat1Find] at h
    rcases orElse_eq_some h with h1 | h1
    · exact pat1AtPos_digitHead h1
    · exact ih h1

lemma exactAmount_digitHead {t : Str} (h : exactAmount t = true) :
    ∃ c cs, t = c :: cs ∧ jsIsDigit c = true := by
  rw [exactAmount] at h
  simp only [Bool.and_eq_true] at h
  have hds := h.1
  rcases hts : t.takeWhile jsIsDigit with _ | ⟨c, cs⟩
  · rw [hts] at hds
    simp at hds
  · have hmem : c ∈ t.takeWhile jsIsDigit := by rw [hts]; simp
    have hc := List.mem_takeWhile_imp hmem
    have hsplit : t.takeWhile jsIsDigit ++ t.dropWhile jsIsDigit = t :=
      List.takeWhile_append_dropWhile jsIsDigit t
    refine ⟨c, cs ++ t.dropWhile jsIsDigit, ?_, hc⟩
    nth_rewrite 1 [← hsplit]
    rw [hts]
    simp

lemma pat2Lazy_digitHead :
    ∀ (s acc : Str) {g1 g2 : Str}, pat2Lazy acc s = some (g1, g2) →
      ∃ c cs, g2 = c :: cs ∧ jsIsDigit c = true := by
  intro s
  induction s with
  | nil => intro acc g1 g2 h; simp [pat2Lazy] at h
  | cons c rest ih =>
    intro acc g1 g2 h
    simp only [pat2Lazy] at h
    split at h
    · simp at h
    · rcases orElse_eq_some h with h1 | h1
      · split at h1
        · split at h1
          · split at h1
            · rename_i hex
              simp only [Option.some_inj, Prod.mk.injEq] at h1
              obtain ⟨_, h2⟩ := h1
              subst h2
              exact exactAmount_digitHead hex
            · simp at h1
          · simp at h1
        · simp at h1
      · exact ih (c :: acc) h1

lemma pat2Find_digitHead :
    ∀ (s : Str) {g1 g2 : Str}, pat2Find s = some (g1, g2) →
      ∃ c cs, g2 = c :: cs ∧ jsIsDigit c = true := by
  intro s
  induction s with
  | nil => intro g1 g2 h; simp [pat2Find] at h
  | cons c rest ih =>
    intro g1 g2 h
    rw [pat2Find] at h
    rcases orElse_eq_some h with h1 | h1
    · exact pat2Lazy_digitHead _ _ h1
    · exact ih h1

lemma findNumberSplit_digitHead :
    ∀ (s pre : Str) {b m a : Str}, findNumberSplit pre s = some (b, m, a) →
      ∃ c cs, m = c :: cs ∧ jsIsDigit c = true := by
  intro s
  induction s with
  | nil => intro pre b m a h; simp [findNumberSplit] at h
  | cons c rest ih =>
    intro pre b m a h
    rw [findNumberSplit] at h
    split at h
    · split at h
      · rename_i m2 r2 heq
        simp only [Option.some_inj, Prod.mk.injEq] at h
        obtain ⟨_, h2, _⟩ := h
        subst h2
        exact matchAmount_digitHead heq
      · simp at h
    · exact ih (c :: pre) h

lemma manualStep1_nonneg {text : Str} {q : ℚ} (h : (manualStep1 text).1 = some q) : 0 ≤ q := by
  rw [manualStep1] at h
  split at h
  · rename_i g1 g2 heq
    exact jsParseFloat_digitHead_nonneg (pat0Find_digitHead _ heq) h
  · split at h
    · rename_i amt g2 heq
      exact jsParseFloat_digitHead_nonneg (pat1Find_digitHead _ heq) h
    · split at h
      · rename_i g1 g2 heq
        exact jsParseFloat_digitHead_nonneg (pat2Find_digitHead _ heq) h
      · simp at h

lemma manualStep2_nonneg {text : Str} {q : ℚ} (h : (manualStep2 text).1 = some q) : 0 ≤ q := by
  rw [manualStep2] at h
  split at h
  · split at h
    · rename_i pre m post heq
      exact jsParseFloat_digitHead_nonneg (findNumberSplit_digitHead _ _ heq) h
    · exact manualStep1_nonneg h
  · exact manualStep1_nonneg h

lemma categoryFor_mem (text : Str) : categoryFor text ∈ standardCategories := by
  simp only [categoryFor]
  split_ifs <;> simp [standardCategories]

lemma manualAmount_nonneg (text : Str) :
    (0 : ℚ) ≤ (if amountFalsy (manualStep2 text).1 then 0 else (manualStep2 text).1.getD 0) := by
  by_cases hf : amountFalsy (manualStep2 text).1 = true
  · rw [if_pos hf]
  · rw [if_neg hf]
    rcases ho : (manualStep2 text).1 with _ | q
    · rw [ho] at hf
      exact absurd hf (by decide)
    · exact manualStep2_nonneg ho

lemma manualDesc_ne (text : Str) :
    (if (if amountFalsy (manualStep2 text).1 then text else (manualStep2 text).2) = []
      then manualEntryStr
      else (if amountFalsy (manualStep2 text).1 then text else (manualStep2 text).2)) ≠ [] := by
  by_cases hd : (if amountFalsy (manualStep2 text).1 then text else (manualStep2 text).2) = []
  · rw [if_pos hd]
    decide
  · rw [if_neg hd]
    exact hd

/-- C1 (counterexample): rendering a record whose description contains a comma and
parsing the result does not reproduce the record, because split(",") cuts the quoted
description field in two. -/
theorem c1_roundtrip_counterexample :
    parseExistingCSV (generateCompleteCSV tsSample [recComma]) ≠ [recComma] := by
  decide

/-- C1 (amended): for every non-empty record set whose fields are free of the CSV
metacharacters (no commas or quotes in descriptions, no newlines, dates not starting
with whitespace or a hash, categories without trailing whitespace), parsing the
rendered document reproduces the records exactly, in order and value. -/
theorem c1_roundtrip (ts : Str) (R : List ExpenseRecord)
    (hts : cleanTimestamp ts = true) (hR : ∀ r ∈ R, cleanRec r = true) (hne : R ≠ []) :
    parseExistingCSV (generateCompleteCSV ts R) = R :=
  parse_generateCompleteCSV ts R hts hR

theorem c1_roundtrip_witness :
    parseExistingCSV (generateCompleteCSV tsSample [recA, recB]) = [recA, recB] :=
  c1_roundtrip tsSample [recA, recB] (by decide) (by decide) (by decide)

/-- C2: with a transport that reports a transient error on every attempt, the
extraction makes exactly the attempts 1..maxRetries and then returns the non-empty
result of the manual fallback parser, never an error. -/
theorem c2_transient_retry (tr : Nat → AIResponse) (date text : Str) (maxR : Nat)
    (htr : ∀ i, 1 ≤ i → i ≤ maxR → ∃ e, tr i = AIResponse.err e ∧ isTransientMsg e = true)
    (hmax : 1 ≤ maxR) (htext : trimStr text ≠ []) :
    parseExpensesWithAIT tr date text maxR =
      (Except.ok (parseExpensesManually date text), List.range' 1 maxR) ∧
    parseExpensesManually date text ≠ [] := by
  constructor
  · rw [parseExpensesWithAIT, if_neg htext]
    exact aiLoop_all_transient tr date text maxR htr maxR 1 (by omega) le_rfl hmax
  · obtain ⟨r, hr⟩ := parseExpensesManually_singleton date text
    rw [hr]
    simp

theorem c2_transient_retry_witness :
    parseExpensesWithAIT transient503 dateSample taxiText 3 =
      (Except.ok (parseExpensesManually dateSample taxiText), List.range' 1 3) ∧
    parseExpensesManually dateSample taxiText ≠ [] :=
  c2_transient_retry transient503 dateSample taxiText 3
    (fun _ _ _ => ⟨("503 Service Unavailable".toList), rfl, by decide⟩) (by decide) (by decide)

/-- C3 (counterexample): a rendered row whose category is not one of the six enum
values parses back with that category kept verbatim, not normalized to Other. -/
theorem c3_category_counterexample :
    (parseExistingCSV (generateCompleteCSV tsSample [recGroceries])).map
      ExpenseRecord.category ≠ [otherStr] := by
  decide

/-- C3 (amended): the parse operation keeps the category column of a data row
verbatim; for any clean record the parsed category equals the rendered one, with no
normalization to the six enum values. -/
theorem c3_category_verbatim (ts : Str) (r : ExpenseRecord)
    (hts : cleanTimestamp ts = true) (hr : cleanRec r = true) :
    (parseExistingCSV (generateCompleteCSV ts [r])).map ExpenseRecord.category =
      [r.category] := by
  rw [parse_generateCompleteCSV ts [r] hts
    (by intro x hx; rw [List.mem_singleton.mp hx]; exact hr)]
  simp

theorem c3_category_verbatim_witness :
    (parseExistingCSV (generateCompleteCSV tsSample [recGroceries])).map
      ExpenseRecord.category = [recGroceries.category] :=
  c3_category_verbatim tsSample recGroceries (by decide) (by decide)

/-- C4 (counterexample): merging a record whose description contains a comma breaks
the merge round trip, so the claim fails without a cleanliness restriction. -/
theorem c4_merge_counterexample :
    parseExistingCSV (mergeDocument tsSample2 (generateCompleteCSV tsSample [recA, recB])
      [recComma]) ≠ [recA, recB, recComma] := by
  decide

/-- C4 (amended): for clean records A, B, C, the document written by the merge
operation over an existing document holding [A, B] and new records [C] parses back to
exactly [A, B, C]: existing first in order, the new record appended. -/
theorem c4_merge_roundtrip (ts ts2 : Str) (A B C : ExpenseRecord)
    (hts : cleanTimestamp ts = true) (hts2 : cleanTimestamp ts2 = true)
    (hA : cleanRec A = true) (hB : cleanRec B = true) (hC : cleanRec C = true) :
    parseExistingCSV (mergeDocument ts2 (generateCompleteCSV ts [A, B]) [C]) =
      [A, B, C] := by
  have h1 : parseExistingCSV (generateCompleteCSV ts [A, B]) = [A, B] :=
    parse_generateCompleteCSV ts [A, B] hts
      (by intro x hx; simp only [List.mem_cons, List.mem_singleton] at hx
          rcases hx with rfl | rfl | hx
          · exact hA
          · exact hB
          · exact absurd hx (List.not_mem_nil x))
  rw [mergeDocument, h1]
  exact parse_generateCompleteCSV ts2 (mergeRecords [A, B] [C]) hts2
    (by intro x hx
        simp only [mergeRecords, List.cons_append, List.nil_append,
          List.mem_cons, List.mem_singleton] at hx
        rcases hx with rfl | rfl | rfl | hx
        · exact hA
        · exact hB
        · exact hC
        · exact absurd hx (List.not_mem_nil x))

theorem c4_merge_roundtrip_witness :
    parseExistingCSV (mergeDocument tsSample2 (generateCompleteCSV tsSample [recA, recB])
      [recGroceries]) = [recA, recB, recGroceries] :=
  c4_merge_roundtrip tsSample tsSample2 recA recB recGroceries
    (by decide) (by decide) (by decide) (by decide) (by decide)

/-- C5 (counterexample): a non-transient error arriving on the final attempt is not
propagated: the extraction falls back to the manual parser and returns ok, so the
claim that non-transient errors always propagate is false. -/
theorem c5_nontransient_counterexample :
    parseExpensesWithAI boomTransport dateSample taxiText 1 =
      Except.ok (parseExpensesManually dateSample taxiText) ∧
    ∀ e, parseExpensesWithAI boomTransport dateSample taxiText 1 ≠ Except.error e := by
  have heq : parseExpensesWithAI boomTransport dateSample taxiText 1 =
      Except.ok (parseExpensesManually dateSample taxiText) := by decide
  exact ⟨heq, fun e h => by rw [heq] at h; exact Except.noConfusion h⟩

/-- C5 (amended): when the first non-transient error arrives on attempt a (after only
transient errors), the extraction stops retrying at a; it propagates the error if
a < maxRetries, but on the final attempt (a = maxRetries) it instead returns the
manual fallback result. -/
theorem c5_nontransient_behavior (tr : Nat → AIResponse) (date text : Str)
    (maxR a : Nat) (e : Str) (ha1 : 1 ≤ a) (ha2 : a ≤ maxR)
    (hbefore : ∀ i, 1 ≤ i → i < a → ∃ e2, tr i = AIResponse.err e2 ∧ isTransientMsg e2 = true)
    (hat : tr a = AIResponse.err e) (hnt : isTransientMsg e = false)
    (htext : trimStr text ≠ []) :
    parseExpensesWithAIT tr date text maxR =
      (if a < maxR then (Except.error e, List.range' 1 a)
       else (Except.ok (parseExpensesManually date text), List.range' 1 a)) := by
  rw [parseExpensesWithAIT, if_neg htext]
  have h := aiLoop_nontransient tr date text maxR a e ha2 hbefore hat hnt maxR 1
    (by omega) le_rfl ha1
  simpa [Nat.add_sub_cancel] using h

theorem c5_nontransient_behavior_witness :
    parseExpensesWithAIT boomTransport dateSample taxiText 3 =
      (if 1 < 3 then (Except.error ("schema violation".toList), List.range' 1 1)
       else (Except.ok (parseExpensesManually dateSample taxiText), List.range' 1 1)) :=
  c5_nontransient_behavior boomTransport dateSample taxiText 3 1
    ("schema violation".toList) (by decide) (by decide)
    (fun _ _ h2 => absurd h2 (by omega)) rfl (by decide) (by decide)

/-- C6: summarizing an empty or header-only sheet returns the no-records result
rather than dividing by zero, and the rendered category breakdown of an empty record
set shows 0.0 percent for each of the six fixed categories. -/
theorem c6_empty_guards :
    getStatsFromSheet none = StatsResult.noRecords ∧
    getStatsFromSheet (some [["Date".toList, "Description".toList,
      "Amount (PHP)".toList, "Category".toList]]) = StatsResult.noRecords ∧
    (breakdownLinesOf []).length = 6 ∧
    ∀ l ∈ breakdownLinesOf [], containsSub l ("(0.0%)".toList) = true := by
  decide

/-- C7: a document of well-formed rows plus one row whose amount field does not parse
as a number parses to exactly the records of the well-formed rows; the corrupt row is
dropped silently and is excluded from the total. -/
theorem c7_corrupt_row_tolerance (ts : Str) (R1 R2 : List ExpenseRecord)
    (d desc amt cat : Str)
    (hts : cleanTimestamp ts = true) (hR : ∀ r ∈ R1 ++ R2, cleanRec r = true)
    (hdate : cleanDate d = true) (hdesc : cleanDesc desc = true)
    (hamtC : ∀ c ∈ amt, c ≠ ',') (hamtN : noNl amt = true) (hcat : cleanCat cat = true)
    (hnan : jsParseFloat amt = none) :
    parseExistingCSV (docWithRows ts (R1 ++ R2)
        (R1.map dataRow ++ rawRow d desc amt cat :: R2.map dataRow)) = R1 ++ R2 ∧
    totalOf (parseExistingCSV (docWithRows ts (R1 ++ R2)
        (R1.map dataRow ++ rawRow d desc amt cat :: R2.map dataRow))) =
      totalOf (R1 ++ R2) := by
  have h := parse_corrupt_doc ts R1 R2 d desc amt cat hts hR hdate hdesc hamtC hamtN
    hcat hnan
  exact ⟨h, by rw [h]⟩

theorem c7_corrupt_row_tolerance_witness :
    parseExistingCSV (docWithRows tsSample ([recA] ++ [recB])
        ([recA].map dataRow ++
          rawRow ("05/02/2026".toList) ("corrupt".toList) ("abc".toList) otherStr ::
          [recB].map dataRow)) = [recA] ++ [recB] ∧
    totalOf (parseExistingCSV (docWithRows tsSample ([recA] ++ [recB])
        ([recA].map dataRow ++
          rawRow ("05/02/2026".toList) ("corrupt".toList) ("abc".toList) otherStr ::
          [recB].map dataRow))) = totalOf ([recA] ++ [recB]) :=
  c7_corrupt_row_tolerance tsSample [recA] [recB] ("05/02/2026".toList)
    ("corrupt".toList) ("abc".toList) otherStr (by decide) (by decide) (by decide)
    (by decide) (by decide) (by decide) (by decide) (by decide)

/-- C8 (counterexample): with two categories tied at the highest sum, the reported
top category is the one encountered last in insertion order, not first: Food is
inserted first, yet Transportation is reported. -/
theorem c8_tie_counterexample :
    getStatsFromSheet (some [["Date".toList],
        ["d".toList, "x".toList, "50".toList, foodStr],
        ["d".toList, "y".toList, "50".toList, transportationStr]]) =
      StatsResult.stats 2 100 50 (transportationStr, 50)
        [(foodStr, 50), (transportationStr, 50)] := by
  decide

/-- C8 (amended): the reported top category attains the maximum summed amount, and it
is the last entry in insertion order attaining that maximum: every entry after it in
the category-totals list is strictly smaller. -/
theorem c8_top_category (values : Option (List (List Str))) (cnt : Nat) (tot avg : ℚ)
    (top : Str × ℚ) (cts : List (Str × ℚ))
    (h : getStatsFromSheet values = StatsResult.stats cnt tot avg top cts)
    (hpos : ∀ e ∈ cts, 0 ≤ e.2) :
    ∃ l1 l2, cts = l1 ++ top :: l2 ∧ (∀ e ∈ cts, e.2 ≤ top.2) ∧
      ∀ e ∈ l2, e.2 < top.2 := by
  obtain ⟨htop, hne⟩ := getStatsFromSheet_stats h
  subst htop
  exact reduceTop_spec cts hne hpos

theorem c8_top_category_witness :
    ∃ l1 l2, [(foodStr, (30 : ℚ)), (transportationStr, (50 : ℚ))] =
        l1 ++ (transportationStr, (50 : ℚ)) :: l2 ∧
      (∀ e ∈ [(foodStr, (30 : ℚ)), (transportationStr, (50 : ℚ))],
        e.2 ≤ ((transportationStr, (50 : ℚ))).2) ∧
      ∀ e ∈ l2, e.2 < ((transportationStr, (50 : ℚ))).2 :=
  c8_top_category (some [["Date".toList],
      ["d".toList, "x".toList, "30".toList, foodStr],
      ["d".toList, "y".toList, "50".toList, transportationStr]])
    2 80 40 (transportationStr, 50) [(foodStr, 30), (transportationStr, 50)]
    (by decide) (by decide)

/-- C9: for the input "taxi fare 80" with every AI attempt failing transiently, the
extraction returns exactly one record with description "taxi fare", amount 80 and
category Transportation, produced by the manual fallback. -/
theorem c9_taxi_fallback :
    parseExpensesWithAI transient503 dateSample taxiText 3 =
      Except.ok [⟨dateSample, "taxi fare".toList, 80, transportationStr⟩] := by
  decide

/-- C10: on every input the manual fallback parser returns exactly one record, with a
non-negative amount, a category among the six fixed values, and a non-empty
description (defaulting to "Manual entry"). -/
theorem c10_fallback_shape (date text : Str) :
    ∃ r, parseExpensesManually date text = [r] ∧ 0 ≤ r.amount ∧
      r.category ∈ standardCategories ∧ r.description ≠ [] :=
  ⟨_, rfl, manualAmount_nonneg text, categoryFor_mem text, manualDesc_ne text⟩

end Kwentako

